import Mathlib

/-!
Verification development for the zip-puzzle-game repository.

This file shallowly embeds the core of the puzzle generator
(PuzzleGenerator in src/utils/puzzleGenerator.ts), the solution
validator (PathValidator in src/utils/pathValidator.ts) and the
interactive path-editing handlers of the Grid component, and proves
properties of those embeddings.

Conventions of the embedding:
- JS numbers that are used as integers are modelled as Int (where they
  can be negative, e.g. findIndex results) or Nat (where they cannot).
- Math.random() driven choices are modelled by explicit oracle
  functions (Nat -> Nat streams, or a rational in weighted draws); every
  theorem quantifies over all oracle outcomes.
- Date.now() is modelled by a clock oracle carried in the search state;
  each isTimedOut check consumes one reading.
- The recursion of generateHamiltonianPath is modelled with an explicit
  fuel parameter; all theorems quantify over every fuel value.
- Thrown exceptions (selectDotPositions) are modelled as Option.none;
  generatePuzzle catches them, exactly as the source does.
-/

namespace ZipPuzzle

/-- Position from src/types/game.ts: integer grid coordinates. -/
structure Position where
  x : Int
  y : Int
deriving DecidableEq, Repr

/-- Dot from src/types/game.ts. -/
structure Dot where
  position : Position
  number : Nat
  isConnected : Bool
deriving DecidableEq, Repr

/-- Puzzle from src/types/game.ts. The JS id string is modelled as an
opaque numeric identifier: no claim inspects it. -/
structure Puzzle where
  id : Nat
  gridSize : Nat
  dots : List Dot
  solutionPath : List Position
deriving DecidableEq, Repr

def dummyPos : Position := ⟨0, 0⟩

def dummyDot : Dot := ⟨dummyPos, 0, false⟩

/-- JS Array.prototype.findIndex with the position-equality predicate
used throughout the source; returns -1 when the position is absent. -/
def findIndexPos : List Position → Position → Int
  | [], _ => -1
  | q :: rest, p =>
    if q = p then 0
    else
      let r := findIndexPos rest p
      if r = -1 then -1 else r + 1

/-- isValidPosition of PuzzleGenerator: bounds check against gridSize. -/
def isValidPosition (N : Nat) (p : Position) : Bool :=
  0 ≤ p.x && p.x < (N : Int) && 0 ≤ p.y && p.y < (N : Int)

/-- The four orthogonal direction offsets (up, right, down, left),
in the order the source lists them. -/
def directions : List Position :=
  [⟨0, -1⟩, ⟨1, 0⟩, ⟨0, 1⟩, ⟨-1, 0⟩]

/-- One orthogonal step: the dx/dy test used by validatePuzzle and
PathValidator.isValidMove. -/
def isOrthStep (p q : Position) : Bool :=
  let dx := (q.x - p.x).natAbs
  let dy := (q.y - p.y).natAbs
  (dx == 1 && dy == 0) || (dx == 0 && dy == 1)

/-- getValidNeighbors of PuzzleGenerator: orthogonal neighbours that are
in bounds and unvisited. The random-comparator .sort() of the source
yields an implementation-defined permutation; the Fisher-Yates shuffle
applied right after it in generateHamiltonianPath is modelled as the
single rng-driven permutation covering both reorderings. -/
def getValidNeighbors (N : Nat) (visited : List Position) (pos : Position) : List Position :=
  (directions.map fun d => Position.mk (pos.x + d.x) (pos.y + d.y)).filter
    fun p => isValidPosition N p && !(visited.contains p)

/-- Swap two array slots, as the destructuring assignment in
shuffleArray does. Out-of-range indices leave the list unchanged. -/
def listSwap (l : List Position) (i j : Nat) : List Position :=
  match l.get? i, l.get? j with
  | some a, some b => (l.set i b).set j a
  | _, _ => l

/-- The loop of the Fisher-Yates shuffleArray: i runs from n-1 down
to 1, and the random index j ∈ [0, i] is taken from the rng stream. -/
def fisherYatesAux (rng : Nat → Nat) : Nat → Nat → List Position → List Position
  | _, 0, l => l
  | k, i + 1, l => fisherYatesAux rng (k + 1) i (listSwap l (i + 1) (rng k % (i + 2)))

/-- shuffleArray of PuzzleGenerator (Fisher-Yates). -/
def shuffleArray (rng : Nat → Nat) (l : List Position) : List Position :=
  fisherYatesAux rng 0 (l.length - 1) l

/-- The transient per-attempt search state of PuzzleGenerator: the
visited set (a set of position keys in the source; positionToKey is
injective, so a list of positions models it), the path stack, and the
two oracles still to be consumed. The boolean grid mirrors the visited
set in the source and is not modelled separately. -/
structure SearchState where
  visited : List Position
  path : List Position
  clock : Nat → Int
  rng : Nat → Nat

/-- One body of generateHamiltonianPath, with the recursive call
abstracted. Mirrors the source line by line: timeout check, visited
check, mark and push, full-length check, neighbour generation and
shuffle, the for-loop over neighbours, and the backtracking cleanup. -/
def tryNeighbors (f : SearchState → Position → Bool × SearchState) :
    SearchState → List Position → Bool × SearchState
  | s, [] => (false, s)
  | s, n :: rest =>
    match f s n with
    | (true, s1) => (true, s1)
    | (false, s1) => tryNeighbors f s1 rest

/-- The state after the Date.now() call of isTimedOut: one clock
reading consumed, nothing else changed. -/
def tickOnly (s : SearchState) : SearchState :=
  { s with clock := fun n => s.clock (n + 1) }

/-- The state after marking start visited and pushing it on the path. -/
def markVisit (s : SearchState) (start : Position) : SearchState :=
  { s with
    clock := fun n => s.clock (n + 1)
    visited := start :: s.visited
    path := s.path ++ [start] }

/-- Drop the k rng values consumed by a shuffle. -/
def shiftRng (s : SearchState) (k : Nat) : SearchState :=
  { s with rng := fun n => s.rng (n + k) }

def genPathBody (N : Nat) (startTime timeout : Int)
    (recur : SearchState → Position → Bool × SearchState)
    (s : SearchState) (start : Position) : Bool × SearchState :=
  if s.clock 0 - startTime > timeout then (false, tickOnly s)
  else if s.visited.contains start then (false, tickOnly s)
  else if (s.path ++ [start]).length = N * N then (true, markVisit s start)
  else
    match tryNeighbors recur
        (shiftRng (markVisit s start)
          ((getValidNeighbors N (start :: s.visited) start).length - 1))
        (shuffleArray s.rng (getValidNeighbors N (start :: s.visited) start)) with
    | (true, s4) => (true, s4)
    | (false, s4) =>
      (false, { s4 with visited := s4.visited.erase start, path := s4.path.dropLast })

/-- generateHamiltonianPath of PuzzleGenerator, with fuel bounding the
recursion depth (the JS recursion is finite on a finite grid; every
theorem below quantifies over all fuel values). -/
def generateHamiltonianPath (N : Nat) (startTime timeout : Int) :
    Nat → SearchState → Position → Bool × SearchState
  | 0, s, _ => (false, s)
  | fuel + 1, s, start =>
    genPathBody N startTime timeout (generateHamiltonianPath N startTime timeout fuel) s start

/-- Stable insertion used to model JS Array.prototype.sort with the
comparator (a, b) => a.number - b.number (Array.sort is stable). -/
def insertByNumber (d : Dot) : List Dot → List Dot
  | [] => [d]
  | e :: rest => if d.number ≤ e.number then d :: e :: rest else e :: insertByNumber d rest

def sortByNumber : List Dot → List Dot
  | [] => []
  | d :: rest => insertByNumber d (sortByNumber rest)

/-- The dot list built by selectDotPositions before the jitter pass:
dot 1 at path[0], intermediate dot i+1 at path[min(i*step, len-2)]
with step = floor(len / (dotCount-1)), and dot dotCount at
path[len-1]. -/
def selectDotInitial (path : List Position) (dotCount : Nat) : List Dot :=
  let pathLength := path.length
  let step := pathLength / (dotCount - 1)
  ({ position := path.getD 0 dummyPos, number := 1, isConnected := false } ::
    (if dotCount > 2 then
      (List.range (dotCount - 2)).map fun k =>
        { position := path.getD (min ((k + 1) * step) (pathLength - 2)) dummyPos,
          number := k + 2, isConnected := false }
    else [])) ++
  [{ position := path.getD (pathLength - 1) dummyPos, number := dotCount, isConnected := false }]

/-- One iteration of the randomizeDotPositions loop at index i.
Indices are JS numbers (findIndex may give -1), hence Int. -/
def randomizeStep (path : List Position) (rng : Nat → Nat) (dots : List Dot) (i : Nat) : List Dot :=
  let di := dots.getD i dummyDot
  let currentPathIndex : Int := findIndexPos path di.position
  let minIndex : Int :=
    if i = 1 then 1 else findIndexPos path (dots.getD (i - 1) dummyDot).position + 1
  let maxIndex : Int :=
    if i = dots.length - 2 then (path.length : Int) - 2
    else findIndexPos path (dots.getD (i + 1) dummyDot).position - 1
  if maxIndex > minIndex then
    let randomOffset : Int := (rng i % (min 3 (maxIndex - minIndex)).toNat : Nat)
    let newIndex : Int := min (currentPathIndex + randomOffset) maxIndex
    dots.set i { di with position := path.getD newIndex.toNat dummyPos }
  else dots

/-- randomizeDotPositions of PuzzleGenerator: the jitter loop over the
intermediate dots, i = 1 .. dots.length - 2. -/
def randomizeDotPositions (path : List Position) (rng : Nat → Nat) (dots : List Dot) : List Dot :=
  (List.range' 1 (dots.length - 2)).foldl (randomizeStep path rng) dots

/-- selectDotPositions of PuzzleGenerator. The thrown Invalid-dot-count
error is modelled as none. -/
def selectDotPositions (path : List Position) (dotCount : Nat) (rng : Nat → Nat) :
    Option (List Dot) :=
  if dotCount < 2 ∨ dotCount > path.length then none
  else some (sortByNumber (randomizeDotPositions path rng (selectDotInitial path dotCount)))

/-- The ascending-order scan shared (verbatim, up to variable names) by
PuzzleGenerator.validatePuzzle and PathValidator.areDotsConnectedInOrder:
walk the number-sorted dots and require each findIndex to be strictly
larger than the previous one (an absent dot gives -1 and fails too,
since the accumulator starts at -1). -/
def dotsAscendingFrom (path : List Position) : List Dot → Int → Bool
  | [], _ => true
  | d :: rest, lastIndex =>
    let pathIndex := findIndexPos path d.position
    if pathIndex ≤ lastIndex then false else dotsAscendingFrom path rest pathIndex

/-- The pairwise continuity loop of validatePuzzle: each consecutive
pair must be one orthogonal step apart. -/
def pathContinuousB : List Position → Bool
  | p :: q :: rest => isOrthStep p q && pathContinuousB (q :: rest)
  | _ => true

/-- validatePuzzle of PuzzleGenerator: ascending dot order, no duplicate
dot positions (the Set of keys has full size), full path length, and
continuity. -/
def validatePuzzle (N : Nat) (path : List Position) (dots : List Dot) : Bool :=
  dotsAscendingFrom path (sortByNumber dots) (-1) &&
  ((dots.map fun d => d.position).dedup.length == dots.length) &&
  (path.length == N * N) &&
  pathContinuousB path

/-- The corner list built by getRandomStartPosition (and by the
Warnsdorff variant getOptimalStartPosition). -/
def cornerPositions (N : Nat) : List Position :=
  [⟨0, 0⟩, ⟨0, (N : Int) - 1⟩, ⟨(N : Int) - 1, 0⟩, ⟨(N : Int) - 1, (N : Int) - 1⟩]

/-- The edge positions pushed by getRandomStartPosition for
i = 1 .. gridSize - 2, four per i, in source order. -/
def edgeStartPositions (N : Nat) : List Position :=
  (List.range' 1 (N - 2)).flatMap fun i =>
    [⟨0, (i : Int)⟩, ⟨(N : Int) - 1, (i : Int)⟩, ⟨(i : Int), 0⟩, ⟨(i : Int), (N : Int) - 1⟩]

/-- getRandomStartPosition of PuzzleGenerator: a uniformly random entry
of the corners-then-edges list; the random index floor(random * len)
is modelled as pick % len. -/
def getRandomStartPosition (N : Nat) (pick : Nat) : Position :=
  let positions := cornerPositions N ++ edgeStartPositions N
  positions.getD (pick % positions.length) dummyPos

/-- getOptimalStartPosition of the Warnsdorff PuzzleGenerator variant
(second document of part_000): a uniformly random corner. -/
def getOptimalStartPosition (N : Nat) (pick : Nat) : Position :=
  (cornerPositions N).getD (pick % 4) dummyPos

/-- JS truthiness defaulting a || b for an optional numeric option:
undefined and 0 are falsy. -/
def jsOr (v : Option Nat) (d : Nat) : Nat :=
  match v with
  | none => d
  | some k => if k = 0 then d else k

/-- DEFAULT_DOTS_PER_GRID_SIZE from src/constants/config.ts. -/
def DEFAULT_DOTS_PER_GRID_SIZE (n : Nat) : Option Nat :=
  match n with
  | 3 => some 4
  | 4 => some 6
  | 5 => some 8
  | 6 => some 10
  | 7 => some 12
  | 8 => some 15
  | _ => none

/-- TIMING_CONFIG.generationTimeout from src/constants/config.ts. -/
def generationTimeout : Int := 5000

/-- The dot count used by attemptGeneration:
options.dotCount || DEFAULT_DOTS_PER_GRID_SIZE[gridSize] || floor(gridSize * 1.5). -/
def effDotCount (N : Nat) (optDotCount : Option Nat) : Nat :=
  jsOr optDotCount (jsOr (DEFAULT_DOTS_PER_GRID_SIZE N) (3 * N / 2))

/-- GenerationOptions from src/utils/puzzleGenerator.ts; absent optional
fields are none. -/
structure GenerationOptions where
  gridSize : Nat
  dotCount : Option Nat
  maxAttempts : Option Nat
  timeout : Option Int

/-- The persistent fields the PuzzleGenerator constructor computes
(grid/path/visited are reset per attempt and are part of SearchState). -/
structure PuzzleGeneratorState where
  gridSize : Nat
  timeout : Int

/-- The PuzzleGenerator constructor:
this.timeout = options.timeout || TIMING_CONFIG.generationTimeout. -/
def mkPuzzleGenerator (options : GenerationOptions) : PuzzleGeneratorState :=
  { gridSize := options.gridSize
    timeout :=
      match options.timeout with
      | none => generationTimeout
      | some t => if t = 0 then generationTimeout else t }

/-- The random and clock outcomes one attempt consumes, plus the fuel
bounding the modelled recursion and the opaque puzzle id. -/
structure AttemptOracle where
  startPick : Nat
  startTime : Int
  clock : Nat → Int
  searchRng : Nat → Nat
  jitterRng : Nat → Nat
  fuel : Nat
  puzzleId : Nat

/-- attemptGeneration of PuzzleGenerator: reset, pick a start, search,
select dots (a thrown error becomes none), validate, build the Puzzle. -/
def attemptGeneration (g : PuzzleGeneratorState) (options : GenerationOptions)
    (o : AttemptOracle) : Option Puzzle :=
  let s0 : SearchState := { visited := [], path := [], clock := o.clock, rng := o.searchRng }
  let start := getRandomStartPosition g.gridSize o.startPick
  match generateHamiltonianPath g.gridSize o.startTime g.timeout o.fuel s0 start with
  | (false, _) => none
  | (true, s1) =>
    let dotCount := effDotCount g.gridSize options.dotCount
    match selectDotPositions s1.path dotCount o.jitterRng with
    | none => none
    | some dots =>
      if validatePuzzle g.gridSize s1.path dots then
        some { id := o.puzzleId, gridSize := g.gridSize, dots := dots, solutionPath := s1.path }
      else none

structure PuzzleGenerationResult where
  success : Bool
  puzzle : Option Puzzle
  error : Option String
deriving Repr

/-- The attempt loop of generatePuzzle, counting attempts upward. -/
def generatePuzzleLoop (g : PuzzleGeneratorState) (options : GenerationOptions)
    (oracles : Nat → AttemptOracle) : Nat → Nat → Option Puzzle
  | 0, _ => none
  | remaining + 1, attempt =>
    match attemptGeneration g options (oracles attempt) with
    | some p => some p
    | none => generatePuzzleLoop g options oracles remaining (attempt + 1)

/-- generatePuzzle of PuzzleGenerator:
maxAttempts = options.maxAttempts || 10, then up to maxAttempts
attempts; exceptions inside an attempt are caught and count as a
failed attempt (already folded into attemptGeneration = none). -/
def generatePuzzle (g : PuzzleGeneratorState) (options : GenerationOptions)
    (oracles : Nat → AttemptOracle) : PuzzleGenerationResult :=
  let maxAttempts := jsOr options.maxAttempts 10
  match generatePuzzleLoop g options oracles maxAttempts 1 with
  | some p => { success := true, puzzle := some p, error := none }
  | none =>
    { success := false, puzzle := none
      error := some ("Failed to generate valid puzzle after " ++
        toString maxAttempts ++ " attempts") }

/-- isWithinBounds of PathValidator. -/
def isWithinBounds (puzzle : Puzzle) (pos : Position) : Bool :=
  0 ≤ pos.x && pos.x < (puzzle.gridSize : Int) &&
  0 ≤ pos.y && pos.y < (puzzle.gridSize : Int)

/-- isValidMove of PathValidator: orthogonal step, then target in
bounds (the origin is not bounds-checked in the source). -/
def isValidMove (puzzle : Puzzle) (fromPos toPos : Position) : Bool :=
  isOrthStep fromPos toPos && isWithinBounds puzzle toPos

/-- isPathContinuous of PathValidator. -/
def isPathContinuous (puzzle : Puzzle) : List Position → Bool
  | p :: q :: rest => isValidMove puzzle p q && isPathContinuous puzzle (q :: rest)
  | _ => true

/-- areDotsConnectedInOrder of PathValidator: the shared ascending scan
over the number-sorted dots. -/
def areDotsConnectedInOrder (puzzle : Puzzle) (path : List Position) : Bool :=
  dotsAscendingFrom path (sortByNumber puzzle.dots) (-1)

/-- The reduce of doesPathEndOnFinalDot: keep the strictly larger
number. -/
def maxNumberDot (d : Dot) (rest : List Dot) : Dot :=
  rest.foldl (fun mx dot => if dot.number > mx.number then dot else mx) d

/-- doesPathEndOnFinalDot of PathValidator. -/
def doesPathEndOnFinalDot (puzzle : Puzzle) (path : List Position) : Bool :=
  match path.getLast?, puzzle.dots with
  | none, _ => false
  | _, [] => false
  | some lastPosition, d :: rest =>
    let finalDot := maxNumberDot d rest
    lastPosition.x == finalDot.position.x && lastPosition.y == finalDot.position.y

/-- The Set-based loop of isPathUnique, with the visited keys
accumulated in a list. -/
def isPathUniqueGo : List Position → List Position → Bool
  | [], _ => true
  | p :: rest, seen => if seen.contains p then false else isPathUniqueGo rest (p :: seen)

/-- isPathUnique of PathValidator. -/
def isPathUnique (path : List Position) : Bool :=
  isPathUniqueGo path []

/-- isPathWithinBounds of PathValidator. -/
def isPathWithinBounds (puzzle : Puzzle) (path : List Position) : Bool :=
  path.all fun pos => isWithinBounds puzzle pos

structure ValidationResult where
  isValid : Bool
  isComplete : Bool
  errors : List String
deriving DecidableEq, Repr

/-- validateSolution of PathValidator: collect the error messages in
source order; isValid holds iff no error was pushed. -/
def validateSolution (puzzle : Puzzle) (path : List Position) : ValidationResult :=
  let totalCells := puzzle.gridSize * puzzle.gridSize
  let isComplete := path.length == totalCells
  let errors : List String :=
    (if !isComplete then
      ["Path incomplete: " ++ toString path.length ++ "/" ++ toString totalCells ++
        " cells filled"]
    else []) ++
    (if !isPathContinuous puzzle path then ["Path contains gaps or invalid moves"] else []) ++
    (if !areDotsConnectedInOrder puzzle path then
      ["Dots are not connected in ascending numerical order"]
    else []) ++
    (if !doesPathEndOnFinalDot puzzle path then
      ["Path must end on the highest numbered dot"]
    else []) ++
    (if !isPathUnique path then ["Path contains overlapping cells"] else []) ++
    (if !isPathWithinBounds puzzle path then ["Path goes outside grid boundaries"] else [])
  { isValid := errors.length == 0, isComplete := isComplete, errors := errors }

/-- The loop of getLastVisitedDot: keep a dot only when its findIndex is
strictly beyond the kept index; stop at the first absent dot; skip (and
keep scanning past) a dot found at or before the kept index. -/
def getLastVisitedDotGo (path : List Position) :
    List Dot → Option Dot → Int → Option Dot × Int
  | [], lastDot, lastIndex => (lastDot, lastIndex)
  | dot :: rest, lastDot, lastIndex =>
    let dotIndex := findIndexPos path dot.position
    if dotIndex ≠ -1 ∧ dotIndex > lastIndex then
      getLastVisitedDotGo path rest (some dot) dotIndex
    else if dotIndex = -1 then (lastDot, lastIndex)
    else getLastVisitedDotGo path rest lastDot lastIndex

/-- getLastVisitedDot of PathValidator. -/
def getLastVisitedDot (puzzle : Puzzle) (path : List Position) : Option Dot × Int :=
  if path.length = 0 then (none, -1)
  else getLastVisitedDotGo path (sortByNumber puzzle.dots) none (-1)

/-- getPreviousNumberedDot of PathValidator. -/
def getPreviousNumberedDot (puzzle : Puzzle) (currentDotNumber : Nat) : Option Dot :=
  if currentDotNumber ≤ 1 then none
  else puzzle.dots.find? fun dot => dot.number == currentDotNumber - 1

/-- canBacktrackToPosition of PathValidator. -/
def canBacktrackToPosition (puzzle : Puzzle) (path : List Position)
    (targetPosition : Position) (currentPosition : Option Position) : Bool :=
  let targetIndex := findIndexPos path targetPosition
  if targetIndex = -1 then false
  else
    let currentPos :=
      match currentPosition with
      | some c => c
      | none => path.getD (path.length - 1) dummyPos
    match puzzle.dots.find?
        (fun dot => dot.position.x == currentPos.x && dot.position.y == currentPos.y) with
    | some currentDot =>
      match getPreviousNumberedDot puzzle currentDot.number with
      | some previousDot => targetIndex ≥ findIndexPos path previousDot.position
      | none => true
    | none =>
      let lastDotIndex := (getLastVisitedDot puzzle path).2
      if lastDotIndex = -1 then true
      else targetIndex ≥ lastDotIndex

/-- The path transition of Grid.handleMouseMove while dragging: ignore
the head cell itself, reject non-adjacent cells, truncate on a legal
backtrack target, ignore an illegal one, and append a fresh adjacent
cell. The drag path is nonempty whenever isDragging holds; an empty
path is returned unchanged. -/
def handleMouseMoveDrag (puzzle : Puzzle) (dragPath : List Position)
    (position : Position) : List Position :=
  match dragPath.getLast? with
  | none => dragPath
  | some lastPosition =>
    if position.x == lastPosition.x && position.y == lastPosition.y then dragPath
    else if !isValidMove puzzle lastPosition position then dragPath
    else
      let pathIndex := findIndexPos dragPath position
      if pathIndex ≠ -1 then
        if canBacktrackToPosition puzzle dragPath position (some lastPosition) then
          dragPath.take (pathIndex.toNat + 1)
        else dragPath
      else dragPath ++ [position]

/-- The path transition of Grid.handleMouseDown: start a new path from
dot 1 on an empty path, or resume (truncate) at a clicked path cell when
the backtracking rules allow it; otherwise leave the path unchanged. -/
def handleMouseDownPath (puzzle : Puzzle) (currentPath : List Position)
    (position : Position) : List Position :=
  let startDot := puzzle.dots.find?
    fun dot => dot.position.x == position.x && dot.position.y == position.y
  match startDot with
  | some d =>
    if d.number == 1 && currentPath.length == 0 then [position]
    else
      let pathIndex := findIndexPos currentPath position
      if pathIndex ≠ -1 then
        if canBacktrackToPosition puzzle currentPath position
            (some (currentPath.getD (currentPath.length - 1) dummyPos)) then
          currentPath.take (pathIndex.toNat + 1)
        else currentPath
      else currentPath
  | none =>
    let pathIndex := findIndexPos currentPath position
    if pathIndex ≠ -1 then
      if canBacktrackToPosition puzzle currentPath position
          (some (currentPath.getD (currentPath.length - 1) dummyPos)) then
        currentPath.take (pathIndex.toNat + 1)
      else currentPath
    else currentPath

/-- A weighted candidate of OptimizedPuzzleGenerator's start selection;
the weights 3.0, 1.5 and 0.5 are exact binary doubles, modelled in ℚ. -/
structure WeightedPos where
  pos : Position
  weight : ℚ

/-- weightedRandomSelect of OptimizedPuzzleGenerator: subtract weights
from random * totalWeight until it drops to 0; fall back to the last
item. -/
def weightedSelectGo : List WeightedPos → ℚ → Position
  | [], _ => dummyPos
  | [item], random =>
    if random - item.weight ≤ 0 then item.pos else item.pos
  | item :: next :: rest, random =>
    if random - item.weight ≤ 0 then item.pos
    else weightedSelectGo (next :: rest) (random - item.weight)

def weightedRandomSelect (items : List WeightedPos) (r : ℚ) : Position :=
  let totalWeight := (items.map fun item => item.weight).sum
  weightedSelectGo items (r * totalWeight)

/-- The weighted candidate list of
OptimizedPuzzleGenerator.getOptimalStartPosition: corners (weight 3),
edges (weight 3/2), and the centre cell when gridSize ≥ 5 (weight 1/2). -/
def optimizedStartCandidates (N : Nat) : List WeightedPos :=
  ((cornerPositions N).map fun pos => WeightedPos.mk pos 3) ++
  ((edgeStartPositions N).map fun pos => WeightedPos.mk pos (3 / 2)) ++
  (if N ≥ 5 then
    [WeightedPos.mk ⟨(N / 2 : Nat), (N / 2 : Nat)⟩ (1 / 2)]
  else [])

/-- getOptimalStartPosition of OptimizedPuzzleGenerator (part_001). -/
def getOptimalStartPositionOptimized (N : Nat) (r : ℚ) : Position :=
  weightedRandomSelect (optimizedStartCandidates N) r

/-! Concrete sample data used to witness the theorems below. -/

/-- Options for a 2 by 2 generation with all optional fields absent. -/
def sampleOptions : GenerationOptions := ⟨2, none, none, none⟩

def sampleGenerator : PuzzleGeneratorState := mkPuzzleGenerator sampleOptions

/-- An oracle whose clock never advances and whose rng always answers 0;
fuel 10 is enough for the 4-cell search. -/
def sampleOracle : AttemptOracle :=
  { startPick := 0, startTime := 0, clock := fun _ => 0, searchRng := fun _ => 0,
    jitterRng := fun _ => 0, fuel := 10, puzzleId := 7 }

def sampleOracles : Nat → AttemptOracle := fun _ => sampleOracle

/-- An oracle whose first clock reading is far past the deadline, so its
attempt times out immediately. -/
def expiredOracle : AttemptOracle :=
  { sampleOracle with clock := fun _ => 1000000 }

/-- The puzzle the sample generation produces (checked by the witnesses). -/
def samplePuzzle : Puzzle :=
  { id := 7, gridSize := 2
    dots := [⟨⟨0, 0⟩, 1, false⟩, ⟨⟨1, 1⟩, 2, false⟩, ⟨⟨1, 0⟩, 3, false⟩]
    solutionPath := [⟨0, 0⟩, ⟨0, 1⟩, ⟨1, 1⟩, ⟨1, 0⟩] }

/-- A 9-cell serpentine path on the 3 by 3 grid, used in concrete
backtracking and checkpoint examples. -/
def path9 : List Position :=
  [⟨0, 0⟩, ⟨1, 0⟩, ⟨2, 0⟩, ⟨2, 1⟩, ⟨1, 1⟩, ⟨0, 1⟩, ⟨0, 2⟩, ⟨1, 2⟩, ⟨2, 2⟩]

/-- A search state whose first clock reading is far beyond any deadline. -/
def expiredState : SearchState :=
  { visited := [], path := [], clock := fun _ => 1000000, rng := fun _ => 0 }

/-- A cell on the outer ring of the N by N grid. -/
def isBoundaryCell (N : Nat) (p : Position) : Bool :=
  isValidPosition N p &&
    (p.x == 0 || p.x == (N : Int) - 1 || p.y == 0 || p.y == (N : Int) - 1)

/-- The centre cell the optimized generator may start from when N >= 5. -/
def centerCell (N : Nat) : Position := ⟨(N / 2 : Nat), (N / 2 : Nat)⟩

/-- The scan of the specification's backtrack scope (section 4.6 of the
spec): walk the checkpoints in ascending number order, stop at the first
whose position is not in the path, and keep the path index of the last
one seen before stopping. Written from the spec's words, to be compared
with the embedded getLastVisitedDot. -/
def specSatisfiedGo (path : List Position) : List Dot → Int → Int
  | [], acc => acc
  | d :: rest, acc =>
    let i := findIndexPos path d.position
    if i = -1 then acc else specSatisfiedGo path rest i

def specSatisfiedInOrderIndex (puzzle : Puzzle) (path : List Position) : Int :=
  specSatisfiedGo path (sortByNumber puzzle.dots) (-1)

/-- A 3 by 3 puzzle whose dots sit on path9 at indices 0, 5, 2 and 4:
the drawn path touches dot 3 and dot 4 before dot 2. -/
def cexPuzzle : Puzzle :=
  { id := 0, gridSize := 3
    dots := [⟨⟨0, 0⟩, 1, false⟩, ⟨⟨0, 1⟩, 2, false⟩, ⟨⟨2, 0⟩, 3, false⟩, ⟨⟨1, 1⟩, 4, false⟩]
    solutionPath := path9 }

/-- The drawn path of the claim's worked example:
1 -> A -> B -> C -> 2 -> D -> E -> F with checkpoint 1 at index 0 and
checkpoint 2 at index 4. -/
def exPath8 : List Position :=
  [⟨0, 0⟩, ⟨1, 0⟩, ⟨2, 0⟩, ⟨2, 1⟩, ⟨2, 2⟩, ⟨1, 2⟩, ⟨1, 1⟩, ⟨0, 1⟩]

def exPuzzle2 : Puzzle :=
  { id := 0, gridSize := 3
    dots := [⟨⟨0, 0⟩, 1, false⟩, ⟨⟨2, 2⟩, 2, false⟩]
    solutionPath := exPath8 }

/-! ### Lemmas about findIndexPos -/

theorem findIndexPos_cases (l : List Position) (p : Position) :
    findIndexPos l p = -1 ∨ 0 ≤ findIndexPos l p := by
  induction l with
  | nil => left; rfl
  | cons q rest ih =>
    simp only [findIndexPos]
    by_cases hq : q = p
    · simp [hq]
    · simp only [if_neg hq]
      rcases ih with h | h
      · simp [h]
      · right
        have : ¬ findIndexPos rest p = -1 := by omega
        simp only [if_neg this]
        omega

theorem findIndexPos_eq_neg_one_iff (l : List Position) (p : Position) :
    findIndexPos l p = -1 ↔ p ∉ l := by
  induction l with
  | nil => simp [findIndexPos]
  | cons q rest ih =>
    simp only [findIndexPos, List.mem_cons]
    by_cases hq : q = p
    · simp [hq]
    · simp only [if_neg hq]
      rcases findIndexPos_cases rest p with h | h
      · have hpne : ¬ p = q := fun hpq => hq hpq.symm
        simp [h, ih.mp h, hpne]
      · have hne : ¬ findIndexPos rest p = -1 := by omega
        have hmem : p ∈ rest := by
          by_contra hc
          exact hne (ih.mpr hc)
        simp only [if_neg hne]
        constructor
        · intro habs; omega
        · intro habs; exact absurd (Or.inr hmem) habs

theorem findIndexPos_nonneg_iff (l : List Position) (p : Position) :
    0 ≤ findIndexPos l p ↔ p ∈ l := by
  rcases findIndexPos_cases l p with h | h
  · rw [h]
    simp only [findIndexPos_eq_neg_one_iff] at h
    constructor
    · intro habs; omega
    · intro habs; exact absurd habs h
  · simp only [h, true_iff]
    by_contra hc
    rw [(findIndexPos_eq_neg_one_iff l p).mpr hc] at h
    omega

theorem findIndexPos_lt_length (l : List Position) (p : Position) :
    findIndexPos l p < (l.length : Int) := by
  induction l with
  | nil => simp [findIndexPos]
  | cons q rest ih =>
    simp only [findIndexPos, List.length_cons]
    by_cases hq : q = p
    · simp only [if_pos hq]
      omega
    · simp only [if_neg hq]
      rcases findIndexPos_cases rest p with h | h
      · simp only [h, if_pos rfl]
        omega
      · have hne : ¬ findIndexPos rest p = -1 := by omega
        simp only [if_neg hne]
        push_cast
        omega

theorem findIndexPos_getD (l : List Position) (p : Position) (hp : p ∈ l) :
    l.getD (findIndexPos l p).toNat dummyPos = p := by
  induction l with
  | nil => cases hp
  | cons q rest ih =>
    simp only [findIndexPos]
    by_cases hq : q = p
    · simp [hq]
    · simp only [if_neg hq]
      have hmem : p ∈ rest := by
        rcases List.mem_cons.mp hp with h | h
        · exact absurd h.symm hq
        · exact h
      have hnn : 0 ≤ findIndexPos rest p := (findIndexPos_nonneg_iff rest p).mpr hmem
      have hne : ¬ findIndexPos rest p = -1 := by omega
      simp only [if_neg hne]
      have htn : (findIndexPos rest p + 1).toNat = (findIndexPos rest p).toNat + 1 := by
        omega
      rw [htn]
      simpa using ih hmem

theorem findIndexPos_of_getD_nodup (l : List Position) (hl : l.Nodup) (k : Nat)
    (hk : k < l.length) : findIndexPos l (l.getD k dummyPos) = (k : Int) := by
  induction l generalizing k with
  | nil => simp at hk
  | cons q rest ih =>
    have hq : q ∉ rest := (List.nodup_cons.mp hl).1
    have hrest : rest.Nodup := (List.nodup_cons.mp hl).2
    match k with
    | 0 => simp [findIndexPos]
    | Nat.succ k =>
      have hk2 : k < rest.length := by simpa using hk
      have hmem : rest.getD k dummyPos ∈ rest := by
        rw [List.getD_eq_getElem rest dummyPos hk2]
        exact List.getElem_mem hk2
      have hqne : q ≠ rest.getD k dummyPos := by
        intro h
        rw [h] at hq
        exact hq hmem
      simp only [List.getD_cons_succ, findIndexPos, if_neg hqne]
      have := ih hrest k hk2
      have hne : ¬ findIndexPos rest (rest.getD k dummyPos) = -1 := by
        rw [this]; omega
      simp only [if_neg hne, this]
      push_cast
      ring

/-! ### Invariants of the Hamiltonian-path search -/

theorem mem_of_mem_listSwap (l : List Position) (i j : Nat) (x : Position)
    (hx : x ∈ listSwap l i j) : x ∈ l := by
  unfold listSwap at hx
  cases hi : l.get? i with
  | none => rw [hi] at hx; exact hx
  | some a =>
    cases hj : l.get? j with
    | none => rw [hi, hj] at hx; exact hx
    | some b =>
      rw [hi, hj] at hx
      rcases List.mem_or_eq_of_mem_set hx with h | h
      · rcases List.mem_or_eq_of_mem_set h with h2 | h2
        · exact h2
        · rw [h2]; exact List.get?_mem hj
      · rw [h]; exact List.get?_mem hi

theorem mem_of_mem_fisherYatesAux (rng : Nat → Nat) :
    ∀ (i k : Nat) (l : List Position) (x : Position),
      x ∈ fisherYatesAux rng k i l → x ∈ l := by
  intro i
  induction i with
  | zero => intro k l x hx; exact hx
  | succ i ih =>
    intro k l x hx
    simp only [fisherYatesAux] at hx
    exact mem_of_mem_listSwap _ _ _ _ (ih (k + 1) _ x hx)

theorem mem_of_mem_shuffleArray (rng : Nat → Nat) (l : List Position) (x : Position)
    (hx : x ∈ shuffleArray rng l) : x ∈ l :=
  mem_of_mem_fisherYatesAux rng _ 0 l x hx

theorem isOrthStep_of_dir (pos d : Position) (hd : d ∈ directions) :
    isOrthStep pos ⟨pos.x + d.x, pos.y + d.y⟩ = true := by
  simp only [directions, List.mem_cons, List.not_mem_nil, or_false] at hd
  rcases hd with h | h | h | h <;>
    · subst h
      simp only [isOrthStep]
      norm_num

theorem mem_getValidNeighbors (N : Nat) (visited : List Position) (pos n : Position)
    (hn : n ∈ getValidNeighbors N visited pos) :
    isValidPosition N n = true ∧ n ∉ visited ∧ isOrthStep pos n = true := by
  unfold getValidNeighbors at hn
  rw [List.mem_filter] at hn
  obtain ⟨hmap, hcond⟩ := hn
  rw [List.mem_map] at hmap
  obtain ⟨d, hd, hdn⟩ := hmap
  have hv : isValidPosition N n = true ∧ visited.contains n = false := by
    have := hcond
    simp only [Bool.and_eq_true, Bool.not_eq_true'] at this
    exact this
  refine ⟨hv.1, ?_, ?_⟩
  · intro hmem
    have : visited.contains n = true := List.elem_iff.mpr hmem
    rw [hv.2] at this
    exact Bool.noConfusion this
  · rw [← hdn]
    exact isOrthStep_of_dir pos d hd

/-- The invariant maintained on the search state: unique path cells, the
visited set contains exactly the path cells, consecutive path cells are
one orthogonal step apart, and every path cell is in bounds. -/
def goodState (N : Nat) (s : SearchState) : Prop :=
  s.path.Nodup ∧ (∀ p, p ∈ s.visited ↔ p ∈ s.path) ∧
  List.Chain' (fun a b => isOrthStep a b = true) s.path ∧
  (∀ p ∈ s.path, isValidPosition N p = true)

/-- The next cell extends the path by one orthogonal step (vacuous for
an empty path). -/
def lastStepOK (path : List Position) (p : Position) : Prop :=
  ∀ q, path.getLast? = some q → isOrthStep q p = true

theorem goodState_congr (N : Nat) (s s2 : SearchState) (hp : s2.path = s.path)
    (hv : s2.visited = s.visited) (h : goodState N s) : goodState N s2 := by
  unfold goodState at *
  rw [hp, hv]
  exact h

theorem tryNeighbors_restore (f : SearchState → Position → Bool × SearchState)
    (hf : ∀ s p, (f s p).1 = false →
      (f s p).2.path = s.path ∧ (f s p).2.visited = s.visited) :
    ∀ (l : List Position) (s : SearchState), (tryNeighbors f s l).1 = false →
      (tryNeighbors f s l).2.path = s.path ∧ (tryNeighbors f s l).2.visited = s.visited := by
  intro l
  induction l with
  | nil => intro s _; exact ⟨rfl, rfl⟩
  | cons n rest ih =>
    intro s h
    cases hfs : f s n with
    | mk b s1 =>
      cases b
      · have hrec := hf s n (by rw [hfs])
        rw [hfs] at hrec
        simp only [tryNeighbors, hfs] at h ⊢
        have := ih s1 h
        exact ⟨this.1.trans hrec.1, this.2.trans hrec.2⟩
      · simp only [tryNeighbors, hfs] at h
        exact Bool.noConfusion h

theorem tryNeighbors_sound (f : SearchState → Position → Bool × SearchState)
    (Q : SearchState → Prop) (basePath baseVisited : List Position)
    (hf : ∀ s p, (f s p).1 = false →
      (f s p).2.path = s.path ∧ (f s p).2.visited = s.visited) :
    ∀ (l : List Position) (s : SearchState), s.path = basePath → s.visited = baseVisited →
      (∀ s2 p, p ∈ l → s2.path = basePath → s2.visited = baseVisited →
        (f s2 p).1 = true → Q (f s2 p).2) →
      (tryNeighbors f s l).1 = true → Q (tryNeighbors f s l).2 := by
  intro l
  induction l with
  | nil => intro s _ _ _ h; simp [tryNeighbors] at h
  | cons n rest ih =>
    intro s hsp hsv hsucc h
    cases hfs : f s n with
    | mk b s1 =>
      cases b
      · have hrec := hf s n (by rw [hfs])
        rw [hfs] at hrec
        simp only [tryNeighbors, hfs] at h ⊢
        exact ih s1 (hrec.1.trans hsp) (hrec.2.trans hsv)
          (fun s2 p hp => hsucc s2 p (List.mem_cons_of_mem n hp)) h
      · simp only [tryNeighbors, hfs]
        have := hsucc s n (List.mem_cons_self n rest) hsp hsv (by rw [hfs])
        rw [hfs] at this
        exact this

@[simp] theorem tickOnly_path (s : SearchState) : (tickOnly s).path = s.path := rfl

@[simp] theorem tickOnly_visited (s : SearchState) : (tickOnly s).visited = s.visited := rfl

@[simp] theorem markVisit_path (s : SearchState) (p : Position) :
    (markVisit s p).path = s.path ++ [p] := rfl

@[simp] theorem markVisit_visited (s : SearchState) (p : Position) :
    (markVisit s p).visited = p :: s.visited := rfl

@[simp] theorem shiftRng_path (s : SearchState) (k : Nat) : (shiftRng s k).path = s.path := rfl

@[simp] theorem shiftRng_visited (s : SearchState) (k : Nat) :
    (shiftRng s k).visited = s.visited := rfl

theorem genPathBody_restore (N : Nat) (t0 tmo : Int)
    (recur : SearchState → Position → Bool × SearchState)
    (hrec : ∀ s p, (recur s p).1 = false →
      (recur s p).2.path = s.path ∧ (recur s p).2.visited = s.visited)
    (s : SearchState) (start : Position)
    (h : (genPathBody N t0 tmo recur s start).1 = false) :
    (genPathBody N t0 tmo recur s start).2.path = s.path ∧
    (genPathBody N t0 tmo recur s start).2.visited = s.visited := by
  unfold genPathBody at h ⊢
  by_cases h1 : s.clock 0 - t0 > tmo
  · rw [if_pos h1]
    exact ⟨rfl, rfl⟩
  · rw [if_neg h1] at h ⊢
    by_cases h2 : s.visited.contains start = true
    · rw [if_pos h2]
      exact ⟨rfl, rfl⟩
    · rw [if_neg h2] at h ⊢
      by_cases h3 : (s.path ++ [start]).length = N * N
      · rw [if_pos h3] at h
        exact Bool.noConfusion h
      · rw [if_neg h3] at h ⊢
        cases hT : tryNeighbors recur
            (shiftRng (markVisit s start)
              ((getValidNeighbors N (start :: s.visited) start).length - 1))
            (shuffleArray s.rng (getValidNeighbors N (start :: s.visited) start)) with
        | mk b s4 =>
          cases b
          · have hres := tryNeighbors_restore recur hrec _ _ (by rw [hT])
            rw [hT] at hres
            simp only [shiftRng_path, shiftRng_visited, markVisit_path, markVisit_visited] at hres
            simp only [hT]
            constructor
            · show s4.path.dropLast = s.path
              rw [hres.1]
              exact List.dropLast_concat
            · show s4.visited.erase start = s.visited
              rw [hres.2]
              exact List.erase_cons_head start s.visited
          · simp only [hT] at h
            exact Bool.noConfusion h

theorem goodState_markVisit (N : Nat) (s : SearchState) (start : Position)
    (hs : goodState N s) (hstart : isValidPosition N start = true)
    (hlast : lastStepOK s.path start) (hnot : start ∉ s.path) :
    goodState N (markVisit s start) := by
  obtain ⟨hnd, hiff, hch, hbd⟩ := hs
  refine ⟨?_, ?_, ?_, ?_⟩
  · simp only [markVisit_path]
    rw [List.nodup_append]
    refine ⟨hnd, List.nodup_singleton start, ?_⟩
    intro a ha hb
    rw [List.mem_singleton] at hb
    rw [hb] at ha
    exact hnot ha
  · intro p
    simp only [markVisit_path, markVisit_visited, List.mem_cons, List.mem_append,
      List.mem_singleton]
    rw [hiff p]
    tauto
  · simp only [markVisit_path]
    rw [List.chain'_append]
    refine ⟨hch, List.chain'_singleton start, ?_⟩
    intro x hx y hy
    rw [List.head?_cons, Option.mem_def, Option.some_inj] at hy
    rw [← hy]
    exact hlast x hx
  · intro p hp
    simp only [markVisit_path, List.mem_append, List.mem_singleton] at hp
    rcases hp with hp | hp
    · exact hbd p hp
    · rw [hp]; exact hstart

theorem genPathBody_sound (N : Nat) (t0 tmo : Int)
    (recur : SearchState → Position → Bool × SearchState)
    (hrecRestore : ∀ s p, (recur s p).1 = false →
      (recur s p).2.path = s.path ∧ (recur s p).2.visited = s.visited)
    (hrecSound : ∀ s p, goodState N s → isValidPosition N p = true →
      lastStepOK s.path p → (recur s p).1 = true →
      goodState N (recur s p).2 ∧ (recur s p).2.path.length = N * N)
    (s : SearchState) (start : Position)
    (hs : goodState N s) (hstart : isValidPosition N start = true)
    (hlast : lastStepOK s.path start)
    (h : (genPathBody N t0 tmo recur s start).1 = true) :
    goodState N (genPathBody N t0 tmo recur s start).2 ∧
    (genPathBody N t0 tmo recur s start).2.path.length = N * N := by
  unfold genPathBody at h ⊢
  by_cases h1 : s.clock 0 - t0 > tmo
  · rw [if_pos h1] at h
    exact Bool.noConfusion h
  · rw [if_neg h1] at h ⊢
    by_cases h2 : s.visited.contains start = true
    · rw [if_pos h2] at h
      exact Bool.noConfusion h
    · rw [if_neg h2] at h ⊢
      have hnotmem : start ∉ s.path := by
        intro hm
        exact h2 (List.elem_iff.mpr ((hs.2.1 start).mpr hm))
      have hgood2 : goodState N (markVisit s start) :=
        goodState_markVisit N s start hs hstart hlast hnotmem
      by_cases h3 : (s.path ++ [start]).length = N * N
      · rw [if_pos h3]
        exact ⟨hgood2, by simpa using h3⟩
      · rw [if_neg h3] at h ⊢
        cases hT : tryNeighbors recur
            (shiftRng (markVisit s start)
              ((getValidNeighbors N (start :: s.visited) start).length - 1))
            (shuffleArray s.rng (getValidNeighbors N (start :: s.visited) start)) with
        | mk b s4 =>
          cases b
          · simp only [hT] at h
            exact Bool.noConfusion h
          · simp only [hT]
            have hsucc : ∀ (s2 : SearchState) (p : Position),
                p ∈ shuffleArray s.rng (getValidNeighbors N (start :: s.visited) start) →
                s2.path = s.path ++ [start] → s2.visited = start :: s.visited →
                (recur s2 p).1 = true →
                goodState N (recur s2 p).2 ∧ (recur s2 p).2.path.length = N * N := by
              intro s2 p hp hsp hsv hrt
              have hpn := mem_getValidNeighbors N (start :: s.visited) start p
                (mem_of_mem_shuffleArray _ _ _ hp)
              refine hrecSound s2 p ?_ hpn.1 ?_ hrt
              · refine goodState_congr N (markVisit s start) s2 ?_ ?_ hgood2
                · rw [hsp]; rfl
                · rw [hsv]; rfl
              · intro q hq
                rw [hsp] at hq
                rw [List.getLast?_concat, Option.some_inj] at hq
                rw [← hq]
                exact hpn.2.2
            have hmain := tryNeighbors_sound recur
              (fun s2 => goodState N s2 ∧ s2.path.length = N * N)
              (s.path ++ [start]) (start :: s.visited) hrecRestore
              (shuffleArray s.rng (getValidNeighbors N (start :: s.visited) start))
              (shiftRng (markVisit s start)
                ((getValidNeighbors N (start :: s.visited) start).length - 1))
              rfl rfl hsucc (by rw [hT])
            rw [hT] at hmain
            exact hmain

theorem generateHamiltonianPath_restore (N : Nat) (t0 tmo : Int) :
    ∀ (fuel : Nat) (s : SearchState) (start : Position),
      (generateHamiltonianPath N t0 tmo fuel s start).1 = false →
      (generateHamiltonianPath N t0 tmo fuel s start).2.path = s.path ∧
      (generateHamiltonianPath N t0 tmo fuel s start).2.visited = s.visited := by
  intro fuel
  induction fuel with
  | zero => intro s start _; exact ⟨rfl, rfl⟩
  | succ fuel ih =>
    intro s start h
    exact genPathBody_restore N t0 tmo _ (fun s2 p => ih s2 p) s start h

theorem generateHamiltonianPath_sound (N : Nat) (t0 tmo : Int) :
    ∀ (fuel : Nat) (s : SearchState) (start : Position),
      goodState N s → isValidPosition N start = true → lastStepOK s.path start →
      (generateHamiltonianPath N t0 tmo fuel s start).1 = true →
      goodState N (generateHamiltonianPath N t0 tmo fuel s start).2 ∧
      (generateHamiltonianPath N t0 tmo fuel s start).2.path.length = N * N := by
  intro fuel
  induction fuel with
  | zero =>
    intro s start _ _ _ h
    exact Bool.noConfusion h
  | succ fuel ih =>
    intro s start hs hstart hlast h
    exact genPathBody_sound N t0 tmo _ (fun s2 p => generateHamiltonianPath_restore N t0 tmo fuel s2 p)
      (fun s2 p => ih s2 p) s start hs hstart hlast h

/-- Specification of a successful search from the fresh per-attempt
state: the resulting path has pairwise-distinct cells, consecutive
cells one orthogonal step apart, all cells in bounds, and full length. -/
theorem generateHamiltonianPath_spec (N : Nat) (t0 tmo : Int) (fuel : Nat)
    (clock : Nat → Int) (rng : Nat → Nat) (start : Position) (s2 : SearchState)
    (hstart : isValidPosition N start = true)
    (h : generateHamiltonianPath N t0 tmo fuel
      { visited := [], path := [], clock := clock, rng := rng } start = (true, s2)) :
    s2.path.Nodup ∧
    List.Chain' (fun a b => isOrthStep a b = true) s2.path ∧
    (∀ p ∈ s2.path, isValidPosition N p = true) ∧
    s2.path.length = N * N := by
  have hinit : goodState N { visited := [], path := [], clock := clock, rng := rng } := by
    refine ⟨List.nodup_nil, ?_, List.chain'_nil, ?_⟩
    · intro p; simp
    · intro p hp; simp at hp
  have := generateHamiltonianPath_sound N t0 tmo fuel
    { visited := [], path := [], clock := clock, rng := rng } start hinit hstart
    (by intro q hq; simp at hq) (by rw [h])
  rw [h] at this
  obtain ⟨⟨hnd, _, hch, hbd⟩, hlen⟩ := this
  exact ⟨hnd, hch, hbd, hlen⟩

/-! ### Lemmas about sortByNumber and the dot construction -/

theorem insertByNumber_of_le (d : Dot) (l : List Dot)
    (h : ∀ e, l.head? = some e → d.number ≤ e.number) :
    insertByNumber d l = d :: l := by
  cases l with
  | nil => rfl
  | cons e rest =>
    have := h e rfl
    simp only [insertByNumber, if_pos this]

/-- A stable sort leaves a list already sorted by number unchanged. -/
theorem sortByNumber_of_sorted (l : List Dot)
    (h : List.Chain' (fun a b => a.number ≤ b.number) l) : sortByNumber l = l := by
  induction l with
  | nil => rfl
  | cons d rest ih =>
    have hrest : List.Chain' (fun a b => a.number ≤ b.number) rest :=
      (List.chain'_cons'.mp h).2
    simp only [sortByNumber, ih hrest]
    refine insertByNumber_of_le d rest ?_
    intro e he
    exact (List.chain'_cons'.mp h).1 e he

theorem foldl_preserves {α β : Type} (f : α → β → α) (P : α → Prop) :
    ∀ (l : List β) (a : α), P a → (∀ a2 b, b ∈ l → P a2 → P (f a2 b)) → P (l.foldl f a) := by
  intro l
  induction l with
  | nil => intro a ha _; exact ha
  | cons b rest ih =>
    intro a ha hstep
    exact ih (f a b) (hstep a b (List.mem_cons_self b rest) ha)
      (fun a2 b2 hb2 => hstep a2 b2 (List.mem_cons_of_mem b hb2))

theorem list_set_getD_self {α : Type} : ∀ (l : List α) (i : Nat) (d : α),
    l.set i (l.getD i d) = l := by
  intro l
  induction l with
  | nil => intro i d; rfl
  | cons a rest ih =>
    intro i d
    cases i with
    | zero => rfl
    | succ i => simp only [List.getD_cons_succ, List.set_cons_succ, ih i d]

theorem head?_set_of_pos {α : Type} (l : List α) (i : Nat) (d : α) (hi : 0 < i) :
    (l.set i d).head? = l.head? := by
  cases l with
  | nil => rfl
  | cons a rest =>
    cases i with
    | zero => omega
    | succ i => rfl

theorem getLast?_set_of_lt {α : Type} (l : List α) (i : Nat) (d : α)
    (hi : i + 1 < l.length) : (l.set i d).getLast? = l.getLast? := by
  rw [List.getLast?_eq_getElem?, List.getLast?_eq_getElem?, List.length_set]
  rw [List.getElem?_set_ne (by omega)]

/-- The properties of the jitter pass needed for the generated-puzzle
claims: it keeps the length, the numbers, the first dot and the last
dot of the dot list. -/
theorem randomizeDotPositions_frame (path : List Position) (rng : Nat → Nat)
    (dots : List Dot) (hlen : 2 ≤ dots.length) :
    (randomizeDotPositions path rng dots).length = dots.length ∧
    (randomizeDotPositions path rng dots).map (fun d => d.number) =
      dots.map (fun d => d.number) ∧
    (randomizeDotPositions path rng dots).head? = dots.head? ∧
    (randomizeDotPositions path rng dots).getLast? = dots.getLast? := by
  unfold randomizeDotPositions
  refine foldl_preserves (randomizeStep path rng)
    (fun ds => ds.length = dots.length ∧
      ds.map (fun d => d.number) = dots.map (fun d => d.number) ∧
      ds.head? = dots.head? ∧ ds.getLast? = dots.getLast?)
    (List.range' 1 (dots.length - 2)) dots ⟨rfl, rfl, rfl, rfl⟩ ?_
  intro ds i hi ⟨hl, hn, hh, hg⟩
  have hi1 : 1 ≤ i ∧ i < 1 + (dots.length - 2) := by
    constructor
    · exact (List.mem_range'_1.mp hi).1
    · exact (List.mem_range'_1.mp hi).2
  unfold randomizeStep
  by_cases hguard : (if i = ds.length - 2 then ((path.length : Int) - 2)
      else findIndexPos path (ds.getD (i + 1) dummyDot).position - 1) >
      (if i = 1 then (1 : Int)
      else findIndexPos path (ds.getD (i - 1) dummyDot).position + 1)
  · rw [if_pos hguard]
    refine ⟨?_, ?_, ?_, ?_⟩
    · rw [List.length_set, hl]
    · rw [List.map_set, ← hn]
      have : (ds.map fun d => d.number).getD i 0 =
          ((ds.getD i dummyDot).number) := by
        by_cases hrange : i < ds.length
        · rw [List.getD_eq_getElem _ _ (by simpa using hrange),
            List.getD_eq_getElem _ _ hrange]
          simp
        · rw [List.getD_eq_default _ _ (by simpa using hrange),
            List.getD_eq_default _ _ (by omega)]
          rfl
      rw [← this, list_set_getD_self]
    · rw [head?_set_of_pos _ _ _ (by omega), hh]
    · rw [getLast?_set_of_lt, hg]
      omega
  · rw [if_neg hguard]
    exact ⟨hl, hn, hh, hg⟩

theorem range'_split_for_dots (dc : Nat) (hdc : 2 ≤ dc) :
    List.range' 1 dc =
      1 :: ((List.range (dc - 2)).map fun k => k + 2) ++ [dc] := by
  obtain ⟨k, rfl⟩ : ∃ k, dc = (k + 1) + 1 := ⟨dc - 2, by omega⟩
  rw [List.range'_succ, List.range'_concat, List.range'_eq_map_range]
  simp only [List.cons_append, Nat.add_sub_cancel]
  congr 2
  · exact List.map_congr_left fun x _ => by omega
  · congr 1
    omega

theorem selectDotInitial_length (path : List Position) (dc : Nat) (hdc : 2 ≤ dc) :
    (selectDotInitial path dc).length = dc := by
  simp only [selectDotInitial]
  by_cases h : dc > 2
  · rw [if_pos h]
    simp only [List.length_append, List.length_cons, List.length_map,
      List.length_range, List.length_nil, List.length_singleton]
    omega
  · rw [if_neg h]
    simp only [List.length_append, List.length_cons, List.length_nil,
      List.length_singleton]
    omega

theorem selectDotInitial_numbers (path : List Position) (dc : Nat) (hdc : 2 ≤ dc) :
    (selectDotInitial path dc).map (fun d => d.number) = List.range' 1 dc := by
  simp only [selectDotInitial]
  rw [range'_split_for_dots dc hdc]
  by_cases h : dc > 2
  · rw [if_pos h]
    simp only [List.map_append, List.map_cons, List.map_map, List.map_singleton]
    congr 1
  · rw [if_neg h]
    have : dc = 2 := by omega
    subst this
    simp

theorem selectDotInitial_head (path : List Position) (dc : Nat) :
    (selectDotInitial path dc).head? =
      some { position := path.getD 0 dummyPos, number := 1, isConnected := false } := by
  simp only [selectDotInitial]
  by_cases h : dc > 2
  · rw [if_pos h]; rfl
  · rw [if_neg h]; rfl

theorem selectDotInitial_getLast (path : List Position) (dc : Nat) :
    (selectDotInitial path dc).getLast? =
      some (Dot.mk (path.getD (path.length - 1) dummyPos) dc false) := by
  simp only [selectDotInitial]
  by_cases h : dc > 2
  · rw [if_pos h]
    rw [List.getLast?_concat]
  · rw [if_neg h]
    rw [List.getLast?_concat]

/-! ### Lemmas about the validation primitives -/

theorem dotsAscendingFrom_spec (path : List Position) :
    ∀ (dots : List Dot) (k : Int), dotsAscendingFrom path dots k = true →
      List.Chain' (fun a b => findIndexPos path a.position < findIndexPos path b.position)
        dots ∧
      ∀ d ∈ dots, k < findIndexPos path d.position := by
  intro dots
  induction dots with
  | nil =>
    intro k _
    exact ⟨List.chain'_nil, fun d hd => absurd hd (List.not_mem_nil d)⟩
  | cons d rest ih =>
    intro k h
    unfold dotsAscendingFrom at h
    by_cases hle : findIndexPos path d.position ≤ k
    · rw [if_pos hle] at h
      exact Bool.noConfusion h
    · rw [if_neg hle] at h
      obtain ⟨hch, hall⟩ := ih (findIndexPos path d.position) h
      refine ⟨?_, ?_⟩
      · rw [List.chain'_cons']
        refine ⟨?_, hch⟩
        intro e he
        exact hall e (List.mem_of_mem_head? he)
      · intro e he
        rcases List.mem_cons.mp he with rfl | hmem
        · omega
        · have := hall e hmem
          omega

theorem isPathUniqueGo_spec :
    ∀ (l seen : List Position), isPathUniqueGo l seen = true ↔
      l.Nodup ∧ ∀ x ∈ l, x ∉ seen := by
  intro l
  induction l with
  | nil =>
    intro seen
    simp [isPathUniqueGo]
  | cons p rest ih =>
    intro seen
    unfold isPathUniqueGo
    by_cases hc : seen.contains p = true
    · rw [if_pos hc]
      have hp : p ∈ seen := List.elem_iff.mp hc
      constructor
      · intro h; exact Bool.noConfusion h
      · intro ⟨_, hall⟩
        exact absurd hp (hall p (List.mem_cons_self p rest))
    · rw [if_neg hc]
      rw [ih (p :: seen)]
      have hp : p ∉ seen := fun hm => hc (List.elem_iff.mpr hm)
      constructor
      · intro ⟨hnd, hall⟩
        refine ⟨List.nodup_cons.mpr ⟨?_, hnd⟩, ?_⟩
        · intro hm
          exact (hall p hm) (List.mem_cons_self p seen)
        · intro x hx
          rcases List.mem_cons.mp hx with rfl | hx2
          · exact hp
          · intro hxs
            exact (hall x hx2) (List.mem_cons_of_mem p hxs)
      · intro ⟨hnd, hall⟩
        refine ⟨?_, ?_⟩
        · exact (List.nodup_cons.mp hnd).2
        · intro x hx hxs
          rcases List.mem_cons.mp hxs with rfl | hxs2
          · exact (List.nodup_cons.mp hnd).1 hx
          · exact (hall x (List.mem_cons_of_mem p hx)) hxs2

theorem isPathUnique_iff (path : List Position) :
    isPathUnique path = true ↔ path.Nodup := by
  unfold isPathUnique
  rw [isPathUniqueGo_spec]
  simp

theorem pathContinuousB_iff :
    ∀ (l : List Position), pathContinuousB l = true ↔
      List.Chain' (fun a b => isOrthStep a b = true) l := by
  intro l
  match l with
  | [] => simp [pathContinuousB]
  | [p] => simp [pathContinuousB]
  | p :: q :: rest =>
    rw [List.chain'_cons]
    unfold pathContinuousB
    rw [Bool.and_eq_true, pathContinuousB_iff (q :: rest)]

theorem isPathContinuous_iff (puzzle : Puzzle) :
    ∀ (l : List Position), isPathContinuous puzzle l = true ↔
      List.Chain' (fun a b => isValidMove puzzle a b = true) l := by
  intro l
  match l with
  | [] => simp [isPathContinuous]
  | [p] => simp [isPathContinuous]
  | p :: q :: rest =>
    rw [List.chain'_cons]
    unfold isPathContinuous
    rw [Bool.and_eq_true, isPathContinuous_iff puzzle (q :: rest)]

theorem dedup_length_iff {α : Type} [DecidableEq α] (l : List α) :
    l.dedup.length = l.length ↔ l.Nodup := by
  constructor
  · intro h
    have hsub : l.dedup.Sublist l := List.dedup_sublist l
    have : l.dedup = l := hsub.eq_of_length h
    rw [← this]
    exact List.nodup_dedup l
  · intro h
    rw [List.dedup_eq_self.mpr h]

theorem validatePuzzle_spec (N : Nat) (path : List Position) (dots : List Dot)
    (h : validatePuzzle N path dots = true) :
    dotsAscendingFrom path (sortByNumber dots) (-1) = true ∧
    (dots.map fun d => d.position).Nodup ∧
    path.length = N * N ∧
    pathContinuousB path = true := by
  unfold validatePuzzle at h
  simp only [Bool.and_eq_true, beq_iff_eq] at h
  refine ⟨h.1.1.1, ?_, h.1.2, h.2⟩
  refine (dedup_length_iff _).mp ?_
  rw [h.1.1.2, List.length_map]

theorem maxNumberDot_of_sorted :
    ∀ (l : List Dot) (d : Dot),
      List.Chain' (fun a b => a.number < b.number) (d :: l) →
      (d :: l).getLast? = some (maxNumberDot d l) := by
  intro l
  induction l with
  | nil => intro d _; rfl
  | cons e rest ih =>
    intro d hch
    have hde : d.number < e.number := (List.chain'_cons.mp hch).1
    have hche : List.Chain' (fun a b => a.number < b.number) (e :: rest) :=
      (List.chain'_cons.mp hch).2
    have step : maxNumberDot d (e :: rest) = maxNumberDot e rest := by
      unfold maxNumberDot
      simp only [List.foldl_cons]
      congr 1
      rw [if_pos hde]
    rw [step, List.getLast?_cons_cons]
    exact ih e hche

theorem chain_lt_numbers_of_range (dots : List Dot) (dc : Nat)
    (h : dots.map (fun d => d.number) = List.range' 1 dc) :
    List.Chain' (fun a b => a.number < b.number) dots := by
  have hr : List.Chain' (fun a b : Nat => a < b) (List.range' 1 dc) :=
    (List.pairwise_lt_range' 1 dc).chain'
  rw [← h] at hr
  exact (List.chain'_map (fun d : Dot => d.number)).mp hr

theorem chain_le_of_chain_lt (dots : List Dot)
    (h : List.Chain' (fun a b => a.number < b.number) dots) :
    List.Chain' (fun a b => a.number ≤ b.number) dots :=
  h.imp fun _ _ hab => Nat.le_of_lt hab

/-! ### The spec of selectDotPositions and attemptGeneration -/

theorem selectDotPositions_spec (path : List Position) (dc : Nat) (rng : Nat → Nat)
    (h2 : 2 ≤ dc) (hle : dc ≤ path.length) :
    ∃ dots, selectDotPositions path dc rng = some dots ∧
      dots = randomizeDotPositions path rng (selectDotInitial path dc) ∧
      dots.length = dc ∧
      dots.map (fun d => d.number) = List.range' 1 dc ∧
      dots.head? = some (Dot.mk (path.getD 0 dummyPos) 1 false) ∧
      dots.getLast? = some (Dot.mk (path.getD (path.length - 1) dummyPos) dc false) := by
  have hguard : ¬ (dc < 2 ∨ dc > path.length) := by omega
  have hinitlen : 2 ≤ (selectDotInitial path dc).length := by
    rw [selectDotInitial_length path dc h2]
    exact h2
  obtain ⟨hflen, hfnum, hfh, hfg⟩ :=
    randomizeDotPositions_frame path rng (selectDotInitial path dc) hinitlen
  have hnum : (randomizeDotPositions path rng (selectDotInitial path dc)).map
      (fun d => d.number) = List.range' 1 dc := by
    rw [hfnum, selectDotInitial_numbers path dc h2]
  have hsid : sortByNumber (randomizeDotPositions path rng (selectDotInitial path dc)) =
      randomizeDotPositions path rng (selectDotInitial path dc) :=
    sortByNumber_of_sorted _
      (chain_le_of_chain_lt _ (chain_lt_numbers_of_range _ dc hnum))
  refine ⟨randomizeDotPositions path rng (selectDotInitial path dc), ?_, rfl, ?_, ?_, ?_, ?_⟩
  · unfold selectDotPositions
    rw [if_neg hguard, hsid]
  · rw [hflen, selectDotInitial_length path dc h2]
  · exact hnum
  · rw [hfh, selectDotInitial_head path dc]
  · rw [hfg, selectDotInitial_getLast path dc]

theorem selectDotPositions_none_iff (path : List Position) (dc : Nat) (rng : Nat → Nat) :
    selectDotPositions path dc rng = none ↔ (dc < 2 ∨ dc > path.length) := by
  unfold selectDotPositions
  by_cases h : dc < 2 ∨ dc > path.length
  · rw [if_pos h]
    simp [h]
  · rw [if_neg h]
    simp [h]

theorem mem_cornerPositions_valid (N : Nat) (hN : 1 ≤ N) (p : Position)
    (hp : p ∈ cornerPositions N) : isValidPosition N p = true := by
  simp only [cornerPositions, List.mem_cons, List.not_mem_nil, or_false] at hp
  rcases hp with h | h | h | h <;>
    · subst h
      simp only [isValidPosition, Bool.and_eq_true, decide_eq_true_eq]
      norm_num
      omega

theorem mem_edgeStartPositions_valid (N : Nat) (p : Position)
    (hp : p ∈ edgeStartPositions N) : isValidPosition N p = true := by
  unfold edgeStartPositions at hp
  rw [List.mem_flatMap] at hp
  obtain ⟨i, hi, hmem⟩ := hp
  have hib : 1 ≤ i ∧ i < 1 + (N - 2) := List.mem_range'_1.mp hi
  have hNi : (0 : Int) ≤ (i : Int) ∧ (i : Int) < (N : Int) := by
    constructor <;> [positivity; exact_mod_cast by omega]
  simp only [List.mem_cons, List.not_mem_nil, or_false] at hmem
  rcases hmem with h | h | h | h <;>
    · subst h
      simp only [isValidPosition, Bool.and_eq_true, decide_eq_true_eq]
      refine ⟨⟨⟨?_, ?_⟩, ?_⟩, ?_⟩ <;> omega

theorem getRandomStartPosition_mem (N : Nat) (pick : Nat) :
    getRandomStartPosition N pick ∈ cornerPositions N ++ edgeStartPositions N := by
  unfold getRandomStartPosition
  have hlen : 0 < (cornerPositions N ++ edgeStartPositions N).length := by
    simp [cornerPositions]
  have hidx : pick % (cornerPositions N ++ edgeStartPositions N).length <
      (cornerPositions N ++ edgeStartPositions N).length :=
    Nat.mod_lt pick hlen
  rw [List.getD_eq_getElem _ _ hidx]
  exact List.getElem_mem hidx

theorem getRandomStartPosition_valid (N : Nat) (pick : Nat) (hN : 1 ≤ N) :
    isValidPosition N (getRandomStartPosition N pick) = true := by
  have hmem := getRandomStartPosition_mem N pick
  rw [List.mem_append] at hmem
  rcases hmem with h | h
  · exact mem_cornerPositions_valid N hN _ h
  · exact mem_edgeStartPositions_valid N _ h

theorem attemptGeneration_spec (g : PuzzleGeneratorState) (options : GenerationOptions)
    (o : AttemptOracle) (P : Puzzle) (hN : 1 ≤ g.gridSize)
    (h : attemptGeneration g options o = some P) :
    P.gridSize = g.gridSize ∧
    P.solutionPath.length = g.gridSize * g.gridSize ∧
    P.solutionPath.Nodup ∧
    List.Chain' (fun a b => isOrthStep a b = true) P.solutionPath ∧
    (∀ p ∈ P.solutionPath, isValidPosition g.gridSize p = true) ∧
    validatePuzzle g.gridSize P.solutionPath P.dots = true ∧
    2 ≤ P.dots.length ∧
    P.dots.map (fun d => d.number) = List.range' 1 P.dots.length ∧
    P.dots.head? = some (Dot.mk (P.solutionPath.getD 0 dummyPos) 1 false) ∧
    P.dots.getLast? = some (Dot.mk
      (P.solutionPath.getD (P.solutionPath.length - 1) dummyPos) P.dots.length false) := by
  simp only [attemptGeneration] at h
  cases hsearch : generateHamiltonianPath g.gridSize o.startTime g.timeout o.fuel
      { visited := [], path := [], clock := o.clock, rng := o.searchRng }
      (getRandomStartPosition g.gridSize o.startPick) with
  | mk b s1 =>
    simp only [hsearch] at h
    cases b
    · exact Option.noConfusion h
    · obtain ⟨hnd, hch, hbd, hlen⟩ := generateHamiltonianPath_spec g.gridSize o.startTime
        g.timeout o.fuel o.clock o.searchRng (getRandomStartPosition g.gridSize o.startPick)
        s1 (getRandomStartPosition_valid g.gridSize o.startPick hN) hsearch
      cases hsel : selectDotPositions s1.path (effDotCount g.gridSize options.dotCount)
          o.jitterRng with
      | none =>
        simp only [hsel] at h
        exact Option.noConfusion h
      | some dots =>
        simp only [hsel] at h
        by_cases hval : validatePuzzle g.gridSize s1.path dots = true
        · rw [if_pos hval] at h
          have hPdef : P = Puzzle.mk o.puzzleId g.gridSize dots s1.path :=
            (Option.some_inj.mp h).symm
          have hcond : ¬ (effDotCount g.gridSize options.dotCount < 2 ∨
              effDotCount g.gridSize options.dotCount > s1.path.length) := by
            intro hc
            rw [(selectDotPositions_none_iff s1.path _ o.jitterRng).mpr hc] at hsel
            exact Option.noConfusion hsel
          obtain ⟨dots2, heq, _, hdlen, hdnum, hdh, hdg⟩ :=
            selectDotPositions_spec s1.path (effDotCount g.gridSize options.dotCount)
              o.jitterRng (by omega) (by omega)
          rw [hsel] at heq
          have hdots2 : dots2 = dots := (Option.some_inj.mp heq).symm
          subst hdots2
          subst hPdef
          refine ⟨rfl, hlen, hnd, hch, hbd, hval, ?_, ?_, ?_, ?_⟩
          · show 2 ≤ dots2.length
            omega
          · show dots2.map (fun d => d.number) = List.range' 1 dots2.length
            rw [hdlen, hdnum]
          · exact hdh
          · show dots2.getLast? = _
            rw [hdg, hdlen]
        · rw [if_neg hval] at h
          exact Option.noConfusion h

theorem generatePuzzleLoop_some (g : PuzzleGeneratorState) (options : GenerationOptions)
    (oracles : Nat → AttemptOracle) :
    ∀ (k a : Nat) (P : Puzzle), generatePuzzleLoop g options oracles k a = some P →
      ∃ attempt, attemptGeneration g options (oracles attempt) = some P := by
  intro k
  induction k with
  | zero =>
    intro a P h
    exact Option.noConfusion h
  | succ k ih =>
    intro a P h
    unfold generatePuzzleLoop at h
    cases ha : attemptGeneration g options (oracles a) with
    | none =>
      simp only [ha] at h
      exact ih (a + 1) P h
    | some p =>
      simp only [ha] at h
      rw [h] at ha
      exact ⟨a, ha⟩

theorem generatePuzzle_puzzle_some (g : PuzzleGeneratorState) (options : GenerationOptions)
    (oracles : Nat → AttemptOracle) (P : Puzzle)
    (h : (generatePuzzle g options oracles).puzzle = some P) :
    ∃ attempt, attemptGeneration g options (oracles attempt) = some P := by
  simp only [generatePuzzle] at h
  cases hl : generatePuzzleLoop g options oracles (jsOr options.maxAttempts 10) 1 with
  | none =>
    simp only [hl] at h
    exact Option.noConfusion h
  | some p =>
    simp only [hl] at h
    have : p = P := Option.some_inj.mp h
    subst this
    exact generatePuzzleLoop_some g options oracles _ 1 p hl

/-! ### Claim C1 -/

/-- Claim C1: for every Puzzle returned with success true by
PuzzleGenerator.generatePuzzle (any gridSize N at least 2, any oracle
outcome), the solution path has length N*N with pairwise-distinct cells
and orthogonally adjacent consecutive cells; the dots as returned are
numbered contiguously 1..K in list order, the dot numbered 1 sits at
solutionPath[0], the highest-numbered dot sits at solutionPath[N*N-1],
and the dots have strictly increasing path indices, all present in the
path. -/
theorem claim_C1 (g : PuzzleGeneratorState) (options : GenerationOptions)
    (oracles : Nat → AttemptOracle) (P : Puzzle)
    (hN : 2 ≤ g.gridSize)
    (hsucc : (generatePuzzle g options oracles).puzzle = some P) :
    (generatePuzzle g options oracles).success = true ∧
    P.gridSize = g.gridSize ∧
    P.solutionPath.length = g.gridSize * g.gridSize ∧
    P.solutionPath.Nodup ∧
    List.Chain' (fun a b => isOrthStep a b = true) P.solutionPath ∧
    P.dots.map (fun d => d.number) = List.range' 1 P.dots.length ∧
    2 ≤ P.dots.length ∧
    P.dots.head? = some (Dot.mk (P.solutionPath.getD 0 dummyPos) 1 false) ∧
    P.dots.getLast? = some (Dot.mk
      (P.solutionPath.getD (P.solutionPath.length - 1) dummyPos) P.dots.length false) ∧
    List.Chain' (fun a b => findIndexPos P.solutionPath a.position <
      findIndexPos P.solutionPath b.position) P.dots ∧
    (∀ d ∈ P.dots, 0 ≤ findIndexPos P.solutionPath d.position) := by
  obtain ⟨attempt, hatt⟩ := generatePuzzle_puzzle_some g options oracles P hsucc
  obtain ⟨hgs, hplen, hnd, hch, _, hval, hdl, hdnum, hdh, hdg⟩ :=
    attemptGeneration_spec g options (oracles attempt) P (by omega) hatt
  have hsuc : (generatePuzzle g options oracles).success = true := by
    simp only [generatePuzzle] at hsucc ⊢
    cases hl : generatePuzzleLoop g options oracles (jsOr options.maxAttempts 10) 1 with
    | none =>
      simp only [hl] at hsucc
      exact Option.noConfusion hsucc
    | some p => simp only [hl]
  obtain ⟨hasc, _, _, _⟩ := validatePuzzle_spec g.gridSize P.solutionPath P.dots hval
  have hsorted : sortByNumber P.dots = P.dots :=
    sortByNumber_of_sorted _ (chain_le_of_chain_lt _
      (chain_lt_numbers_of_range _ P.dots.length hdnum))
  rw [hsorted] at hasc
  obtain ⟨hchidx, hall⟩ := dotsAscendingFrom_spec P.solutionPath P.dots (-1) hasc
  refine ⟨hsuc, hgs, hplen, hnd, hch, hdnum, hdl, hdh, hdg, hchidx, ?_⟩
  intro d hd
  have := hall d hd
  omega

/-- Witness for claim C1 at a concrete 2 by 2 generation. -/
theorem claim_C1_witness :
    (2 ≤ sampleGenerator.gridSize ∧
      (generatePuzzle sampleGenerator sampleOptions sampleOracles).puzzle =
        some samplePuzzle) ∧
    ((generatePuzzle sampleGenerator sampleOptions sampleOracles).success = true ∧
      samplePuzzle.gridSize = sampleGenerator.gridSize ∧
      samplePuzzle.solutionPath.length =
        sampleGenerator.gridSize * sampleGenerator.gridSize ∧
      samplePuzzle.solutionPath.Nodup ∧
      List.Chain' (fun a b => isOrthStep a b = true) samplePuzzle.solutionPath ∧
      samplePuzzle.dots.map (fun d => d.number) =
        List.range' 1 samplePuzzle.dots.length ∧
      2 ≤ samplePuzzle.dots.length ∧
      samplePuzzle.dots.head? =
        some (Dot.mk (samplePuzzle.solutionPath.getD 0 dummyPos) 1 false) ∧
      samplePuzzle.dots.getLast? = some (Dot.mk
        (samplePuzzle.solutionPath.getD (samplePuzzle.solutionPath.length - 1) dummyPos)
        samplePuzzle.dots.length false) ∧
      List.Chain' (fun a b => findIndexPos samplePuzzle.solutionPath a.position <
        findIndexPos samplePuzzle.solutionPath b.position) samplePuzzle.dots ∧
      (∀ d ∈ samplePuzzle.dots, 0 ≤ findIndexPos samplePuzzle.solutionPath d.position)) :=
  ⟨⟨by decide, by decide⟩,
    claim_C1 sampleGenerator sampleOptions sampleOracles samplePuzzle
      (by decide) (by decide)⟩

/-! ### Claim C2 -/

theorem chain'_and_mem {l : List Position} {R : Position → Position → Prop}
    {B : Position → Prop} (hch : List.Chain' R l) (hb : ∀ p ∈ l, B p) :
    List.Chain' (fun a b => R a b ∧ B b) l := by
  induction l with
  | nil => exact List.chain'_nil
  | cons a rest ih =>
    rw [List.chain'_cons'] at hch ⊢
    refine ⟨?_, ih hch.2 (fun p hp => hb p (List.mem_cons_of_mem a hp))⟩
    intro b hbh
    exact ⟨hch.1 b hbh, hb b (List.mem_cons_of_mem a (List.mem_of_mem_head? hbh))⟩

theorem isWithinBounds_eq (puzzle : Puzzle) (p : Position) :
    isWithinBounds puzzle p = isValidPosition puzzle.gridSize p := rfl

theorem getLast?_eq_getD {α : Type} (l : List α) (d : α) (h : l ≠ []) :
    l.getLast? = some (l.getD (l.length - 1) d) := by
  have hlen : 0 < l.length := List.length_pos.mpr h
  rw [List.getLast?_eq_getElem?, List.getD_eq_getElem l d (by omega)]
  exact List.getElem?_eq_getElem (by omega)

/-- Claim C2: for every successfully generated puzzle P,
validateSolution applied to its own solution path answers
isValid = true and isComplete = true with no error message. -/
theorem claim_C2 (g : PuzzleGeneratorState) (options : GenerationOptions)
    (oracles : Nat → AttemptOracle) (P : Puzzle)
    (hN : 2 ≤ g.gridSize)
    (hsucc : (generatePuzzle g options oracles).puzzle = some P) :
    validateSolution P P.solutionPath =
      { isValid := true, isComplete := true, errors := [] } := by
  obtain ⟨attempt, hatt⟩ := generatePuzzle_puzzle_some g options oracles P hsucc
  obtain ⟨hgs, hplen, hnd, hch, hbd, hval, hdl, hdnum, hdh, hdg⟩ :=
    attemptGeneration_spec g options (oracles attempt) P (by omega) hatt
  obtain ⟨hasc, _, _, _⟩ := validatePuzzle_spec g.gridSize P.solutionPath P.dots hval
  have hplen2 : P.solutionPath.length = P.gridSize * P.gridSize := by rw [hgs]; exact hplen
  have hpathne : P.solutionPath ≠ [] := by
    intro h0
    rw [h0] at hplen
    have h4 : 4 ≤ g.gridSize * g.gridSize := Nat.mul_le_mul hN hN
    simp only [List.length_nil] at hplen
    omega
  have hcomplete : (P.solutionPath.length == P.gridSize * P.gridSize) = true :=
    beq_iff_eq.mpr hplen2
  have hbounds : ∀ p ∈ P.solutionPath, isWithinBounds P p = true := by
    intro p hp
    rw [isWithinBounds_eq, hgs]
    exact hbd p hp
  have hcont : isPathContinuous P P.solutionPath = true := by
    rw [isPathContinuous_iff]
    have := chain'_and_mem hch hbounds
    refine this.imp ?_
    intro a b hab
    simp only [isValidMove, Bool.and_eq_true]
    exact hab
  have horder : areDotsConnectedInOrder P P.solutionPath = true := hasc
  have hglast : P.solutionPath.getLast? =
      some (P.solutionPath.getD (P.solutionPath.length - 1) dummyPos) :=
    getLast?_eq_getD P.solutionPath dummyPos hpathne
  have hend : doesPathEndOnFinalDot P P.solutionPath = true := by
    obtain ⟨d, rest, hdr⟩ : ∃ d rest, P.dots = d :: rest := by
      cases hd : P.dots with
      | nil =>
        rw [hd] at hdl
        simp at hdl
      | cons d rest => exact ⟨d, rest, rfl⟩
    have hchlt : List.Chain' (fun a b => a.number < b.number) P.dots :=
      chain_lt_numbers_of_range _ _ hdnum
    rw [hdr] at hchlt hdg
    have hmax : (d :: rest).getLast? = some (maxNumberDot d rest) :=
      maxNumberDot_of_sorted rest d hchlt
    rw [hmax] at hdg
    have hfinal : maxNumberDot d rest = Dot.mk
        (P.solutionPath.getD (P.solutionPath.length - 1) dummyPos) (d :: rest).length false :=
      Option.some_inj.mp hdg
    simp only [doesPathEndOnFinalDot, hglast, hdr, hfinal]
    simp
  have huniq : isPathUnique P.solutionPath = true := (isPathUnique_iff _).mpr hnd
  have hinb : isPathWithinBounds P P.solutionPath = true := by
    unfold isPathWithinBounds
    rw [List.all_eq_true]
    intro p hp
    exact hbounds p hp
  simp only [validateSolution, hcomplete, hcont, horder, hend, huniq, hinb,
    Bool.not_true, Bool.false_eq_true, if_false, List.nil_append, List.append_nil]
  rfl

/-- Witness for claim C2 at the concrete 2 by 2 generation. -/
theorem claim_C2_witness :
    (2 ≤ sampleGenerator.gridSize ∧
      (generatePuzzle sampleGenerator sampleOptions sampleOracles).puzzle =
        some samplePuzzle) ∧
    validateSolution samplePuzzle samplePuzzle.solutionPath =
      { isValid := true, isComplete := true, errors := [] } :=
  ⟨⟨by decide, by decide⟩,
    claim_C2 sampleGenerator sampleOptions sampleOracles samplePuzzle
      (by decide) (by decide)⟩

/-! ### Claim C7 -/

/-- Claim C7: the wall-clock deadline is checked at every entry of the
recursive search; a call entered with the clock past the deadline
returns failure without marking any cell visited or pushing any cell
onto the path — in particular a search started with an already-expired
deadline fails immediately, exploring nothing. -/
theorem claim_C7 (N : Nat) (t0 tmo : Int) (fuel : Nat) (s : SearchState) (start : Position)
    (hexp : s.clock 0 - t0 > tmo) :
    (generateHamiltonianPath N t0 tmo fuel s start).1 = false ∧
    (generateHamiltonianPath N t0 tmo fuel s start).2.path = s.path ∧
    (generateHamiltonianPath N t0 tmo fuel s start).2.visited = s.visited := by
  cases fuel with
  | zero => exact ⟨rfl, rfl, rfl⟩
  | succ fuel =>
    simp [generateHamiltonianPath, genPathBody, if_pos hexp, tickOnly]

/-- Witness for claim C7: the concrete expired state fails at once. -/
theorem claim_C7_witness :
    expiredState.clock 0 - 0 > 5000 ∧
    ((generateHamiltonianPath 2 0 5000 10 expiredState ⟨0, 0⟩).1 = false ∧
     (generateHamiltonianPath 2 0 5000 10 expiredState ⟨0, 0⟩).2.path = expiredState.path ∧
     (generateHamiltonianPath 2 0 5000 10 expiredState ⟨0, 0⟩).2.visited =
       expiredState.visited) :=
  ⟨by decide, claim_C7 2 0 5000 10 expiredState ⟨0, 0⟩ (by decide)⟩

/-! ### Claim C9 -/

/-- Claim C9: checkpoint selection fails (throws Invalid dot count,
modelled as none) exactly when dotCount < 2 or dotCount exceeds the
path length; otherwise it returns exactly dotCount checkpoints. -/
theorem claim_C9 (path : List Position) (dc : Nat) (rng : Nat → Nat) :
    (selectDotPositions path dc rng = none ↔ (dc < 2 ∨ dc > path.length)) ∧
    (∀ dots, selectDotPositions path dc rng = some dots → dots.length = dc) := by
  refine ⟨selectDotPositions_none_iff path dc rng, ?_⟩
  intro dots h
  by_cases hc : dc < 2 ∨ dc > path.length
  · rw [(selectDotPositions_none_iff path dc rng).mpr hc] at h
    exact Option.noConfusion h
  · obtain ⟨dots2, heq, _, hlen, _, _, _⟩ :=
      selectDotPositions_spec path dc rng (by omega) (by omega)
    rw [heq] at h
    rw [← Option.some_inj.mp h]
    exact hlen

/-- Witness for claim C9: selectCheckpoints(path, 1) fails on the
concrete 9-cell path. -/
theorem claim_C9_witness :
    (selectDotPositions path9 1 (fun _ => 0) = none ↔ (1 < 2 ∨ 1 > path9.length)) ∧
    (∀ dots, selectDotPositions path9 1 (fun _ => 0) = some dots → dots.length = 1) :=
  claim_C9 path9 1 (fun _ => 0)

/-! ### Claim C10 -/

/-- Claim C10: zero-valued generation options are silently replaced by
defaults through JS truthiness: maxAttempts = 0 behaves as 10 attempts
(a run whose first nine attempts time out and whose tenth succeeds
reports success, while an explicit maxAttempts = 1 on the same oracles
fails), and constructing the generator with timeout = 0 installs the
5000 ms TIMING_CONFIG default instead of an immediate deadline. -/
theorem claim_C10 :
    jsOr (some 0) 10 = 10 ∧
    (mkPuzzleGenerator ⟨2, none, some 0, some 0⟩).timeout = generationTimeout ∧
    generationTimeout = 5000 ∧
    (generatePuzzle (mkPuzzleGenerator ⟨2, none, some 0, some 0⟩) ⟨2, none, some 0, some 0⟩
      (fun a => if a = 10 then sampleOracle else expiredOracle)).success = true ∧
    (generatePuzzle (mkPuzzleGenerator ⟨2, none, some 1, some 0⟩) ⟨2, none, some 1, some 0⟩
      (fun a => if a = 10 then sampleOracle else expiredOracle)).success = false :=
  ⟨rfl, rfl, rfl, by decide, by decide⟩

/-! ### Claim C5 (corrected) -/

/-- Claim C5 counterexample: on a 3 by 3 grid the RNG outcome pick = 4
makes PuzzleGenerator.getRandomStartPosition return the edge cell
(0, 1), which is not one of the four grid corners — so an attempt may
start the Hamiltonian search at a non-corner cell. -/
theorem claim_C5_counterexample :
    getRandomStartPosition 3 4 = (⟨0, 1⟩ : Position) ∧
    (⟨0, 1⟩ : Position) ∉ cornerPositions 3 := by
  constructor
  · decide
  · decide

theorem weightedSelectGo_mem :
    ∀ (items : List WeightedPos) (r : ℚ), items ≠ [] →
      weightedSelectGo items r ∈ items.map fun i => i.pos := by
  intro items
  induction items with
  | nil => intro r h; exact absurd rfl h
  | cons item rest ih =>
    intro r _
    cases rest with
    | nil =>
      unfold weightedSelectGo
      by_cases h : r - item.weight ≤ 0
      · rw [if_pos h]; exact List.mem_singleton.mpr rfl
      · rw [if_neg h]; exact List.mem_singleton.mpr rfl
    | cons next rest2 =>
      unfold weightedSelectGo
      by_cases h : r - item.weight ≤ 0
      · rw [if_pos h]
        exact List.mem_cons_self _ _
      · rw [if_neg h]
        exact List.mem_cons_of_mem _ (ih (r - item.weight) (List.cons_ne_nil next rest2))

/-- Claim C5 amended: the start of a generation attempt is not always a
corner. PuzzleGenerator.getRandomStartPosition draws uniformly from the
list of the four corners plus all edge cells (a boundary cell; exactly
the corners only when N = 2); the Warnsdorff PuzzleGenerator variant
draws uniformly from the four corners; and
OptimizedPuzzleGenerator.getOptimalStartPosition draws (weighted) from
corners, edges, and — when N >= 5 — the centre cell. -/
theorem claim_C5_amended (N : Nat) (hN : 2 ≤ N) :
    (∀ pick, getRandomStartPosition N pick ∈ cornerPositions N ++ edgeStartPositions N) ∧
    (∀ pick, isBoundaryCell N (getRandomStartPosition N pick) = true) ∧
    (∀ pick, getOptimalStartPosition N pick ∈ cornerPositions N) ∧
    (∀ r : ℚ, getOptimalStartPositionOptimized N r ∈
      cornerPositions N ++ edgeStartPositions N ++
        (if N ≥ 5 then [centerCell N] else [])) := by
  refine ⟨fun pick => getRandomStartPosition_mem N pick, ?_, ?_, ?_⟩
  · intro pick
    have hmem := getRandomStartPosition_mem N pick
    have hvalid := getRandomStartPosition_valid N pick (by omega)
    rw [List.mem_append] at hmem
    unfold isBoundaryCell
    rw [Bool.and_eq_true]
    refine ⟨hvalid, ?_⟩
    rcases hmem with h | h
    · simp only [cornerPositions, List.mem_cons, List.not_mem_nil, or_false] at h
      rcases h with h | h | h | h <;>
        · rw [h]
          simp
    · unfold edgeStartPositions at h
      rw [List.mem_flatMap] at h
      obtain ⟨i, _, hmem2⟩ := h
      simp only [List.mem_cons, List.not_mem_nil, or_false] at hmem2
      rcases hmem2 with h | h | h | h <;>
        · rw [h]
          simp
  · intro pick
    unfold getOptimalStartPosition
    have hidx : pick % 4 < (cornerPositions N).length := by
      have : (cornerPositions N).length = 4 := by simp [cornerPositions]
      rw [this]
      omega
    rw [List.getD_eq_getElem _ _ hidx]
    exact List.getElem_mem hidx
  · intro r
    unfold getOptimalStartPositionOptimized weightedRandomSelect
    have hne : optimizedStartCandidates N ≠ [] := by
      unfold optimizedStartCandidates
      intro h
      have := congrArg List.length h
      simp [cornerPositions] at this
    have hmem := weightedSelectGo_mem (optimizedStartCandidates N)
      (r * ((optimizedStartCandidates N).map fun item => item.weight).sum) hne
    suffices hsub : ((optimizedStartCandidates N).map fun i => i.pos) ⊆
        cornerPositions N ++ edgeStartPositions N ++
          (if N ≥ 5 then [centerCell N] else []) by
      exact hsub hmem
    unfold optimizedStartCandidates
    intro p hp
    simp only [List.map_append, List.map_map, List.mem_append] at hp
    simp only [List.mem_append]
    rcases hp with (h | h) | h
    · left; left
      simpa using h
    · left; right
      simpa using h
    · right
      by_cases h5 : N ≥ 5
      · rw [if_pos h5] at h ⊢
        simpa using h
      · rw [if_neg h5] at h
        simp at h

/-- Witness for the amended claim C5 at N = 3. -/
theorem claim_C5_amended_witness :
    2 ≤ 3 ∧
    ((∀ pick, getRandomStartPosition 3 pick ∈ cornerPositions 3 ++ edgeStartPositions 3) ∧
     (∀ pick, isBoundaryCell 3 (getRandomStartPosition 3 pick) = true) ∧
     (∀ pick, getOptimalStartPosition 3 pick ∈ cornerPositions 3) ∧
     (∀ r : ℚ, getOptimalStartPositionOptimized 3 r ∈
       cornerPositions 3 ++ edgeStartPositions 3 ++
         (if 3 ≥ 5 then [centerCell 3] else []))) :=
  ⟨by decide, claim_C5_amended 3 (by decide)⟩

/-! ### Claim C4 (corrected) -/

/-- Claim C4 counterexample: for the 9-cell path and dotCount = 4, the
code places the checkpoint numbered 2 at path index 3, whereas the
claim formula min(2 * floor((9-1)/(4-1)), 9-2) predicts index 4. -/
theorem claim_C4_counterexample :
    ((selectDotInitial path9 4).getD 1 dummyDot).number = 2 ∧
    findIndexPos path9 ((selectDotInitial path9 4).getD 1 dummyDot).position = 3 ∧
    min (2 * ((path9.length - 1) / (4 - 1))) (path9.length - 2) = 4 ∧
    (3 : Int) ≠ (4 : Int) := by
  refine ⟨by decide, by decide, by decide, by decide⟩

/-- Claim C4 amended: before jitter, the intermediate checkpoint
numbered i (1 < i < dotCount) of a completed path is placed at path
index min((i-1) * floor(len / (dotCount-1)), len-2). -/
theorem claim_C4_amended (path : List Position) (dc i : Nat)
    (h2 : 2 < dc) (hle : dc ≤ path.length) (hi1 : 1 < i) (hi2 : i < dc) :
    (selectDotInitial path dc).getD (i - 1) dummyDot =
      Dot.mk (path.getD (min ((i - 1) * (path.length / (dc - 1))) (path.length - 2)) dummyPos)
        i false := by
  simp only [selectDotInitial, if_pos h2]
  obtain ⟨k, rfl⟩ : ∃ k, i = (k + 1) + 1 := ⟨i - 2, by omega⟩
  have hk : k + 1 ≤ dc - 2 := by omega
  have hstep : (k + 1) + 1 - 1 = k + 1 := by omega
  rw [hstep]
  have hlt1 : k + 1 <
      (Dot.mk (path.getD 0 dummyPos) 1 false ::
        (List.range (dc - 2)).map fun k2 =>
          Dot.mk (path.getD (min ((k2 + 1) * (path.length / (dc - 1))) (path.length - 2)) dummyPos)
            (k2 + 2) false).length := by
    simp only [List.length_cons, List.length_map, List.length_range]
    omega
  rw [List.getD_append _ _ _ _ hlt1, List.getD_cons_succ]
  have hlt : k < ((List.range (dc - 2)).map fun k2 =>
      Dot.mk (path.getD (min ((k2 + 1) * (path.length / (dc - 1))) (path.length - 2)) dummyPos)
        (k2 + 2) false).length := by
    simp only [List.length_map, List.length_range]
    omega
  rw [List.getD_eq_getElem _ _ hlt]
  simp only [List.getElem_map, List.getElem_range]

/-- Witness for the amended claim C4: path9, dotCount 4, i = 2. -/
theorem claim_C4_amended_witness :
    (2 < 4 ∧ 4 ≤ path9.length ∧ 1 < 2 ∧ 2 < 4) ∧
    (selectDotInitial path9 4).getD (2 - 1) dummyDot =
      Dot.mk (path9.getD (min ((2 - 1) * (path9.length / (4 - 1))) (path9.length - 2)) dummyPos)
        2 false :=
  ⟨⟨by decide, by decide, by decide, by decide⟩,
    claim_C4_amended path9 4 2 (by decide) (by decide) (by decide) (by decide)⟩

/-! ### Claim C6: invariants of checkpoint selection under jitter -/

theorem getD_set_ne' (l : List Dot) (i j : Nat) (a d : Dot) (h : i ≠ j) :
    (l.set i a).getD j d = l.getD j d := by
  rw [List.getD_eq_getElem?_getD, List.getD_eq_getElem?_getD, List.getElem?_set_ne h]

theorem getD_set_eq' (l : List Dot) (i : Nat) (a d : Dot) (h : i < l.length) :
    (l.set i a).getD i d = a := by
  rw [List.getD_eq_getElem?_getD, List.getElem?_set_eq_of_lt a h]
  rfl

/-- The capping min(j * step, len - 2) in selectDotPositions is
inactive: the uncapped index already fits. -/
theorem cap_inactive (len dc j : Nat) (h2 : 2 ≤ dc) (hle : dc ≤ len) (hj : j ≤ dc - 2) :
    j * (len / (dc - 1)) ≤ len - 2 := by
  have hq1 : 1 ≤ dc - 1 := by omega
  have hkq : len / (dc - 1) * (dc - 1) ≤ len := Nat.div_mul_le_self len (dc - 1)
  have hk1 : 1 ≤ len / (dc - 1) := (Nat.one_le_div_iff (by omega)).mpr (by omega)
  rcases Nat.lt_or_ge (len / (dc - 1)) 2 with hk2 | hk2
  · have hk : len / (dc - 1) = 1 := by omega
    rw [hk, Nat.mul_one]
    omega
  · have h1 : j * (len / (dc - 1)) ≤ (dc - 2) * (len / (dc - 1)) :=
      Nat.mul_le_mul_right _ hj
    have h2m : (dc - 1) * (len / (dc - 1)) = (dc - 2) * (len / (dc - 1)) + (len / (dc - 1)) := by
      have hdd : dc - 1 = (dc - 2) + 1 := by omega
      rw [hdd, Nat.succ_mul]
    have h3 : (dc - 1) * (len / (dc - 1)) ≤ len := by
      rw [Nat.mul_comm]
      exact hkq
    omega

/-- The path index of each pre-jitter checkpoint. -/
theorem selectDotInitial_idx (path : List Position) (hp : path.Nodup) (dc : Nat)
    (h2 : 2 ≤ dc) (hle : dc ≤ path.length) (j : Nat) (hj : j < dc) :
    findIndexPos path ((selectDotInitial path dc).getD j dummyDot).position =
      (if j = 0 then 0
       else if j = dc - 1 then (path.length : Int) - 1
       else ((j * (path.length / (dc - 1)) : Nat) : Int)) := by
  have hlenpos : 0 < path.length := by omega
  by_cases hj0 : j = 0
  · subst hj0
    have : (selectDotInitial path dc).getD 0 dummyDot =
        Dot.mk (path.getD 0 dummyPos) 1 false := by
      simp only [selectDotInitial]
      by_cases h : dc > 2
      · rw [if_pos h]; rfl
      · rw [if_neg h]; rfl
    rw [this, if_pos rfl]
    exact findIndexPos_of_getD_nodup path hp 0 hlenpos
  · by_cases hjlast : j = dc - 1
    · subst hjlast
      have hgl : (selectDotInitial path dc).getD (dc - 1) dummyDot =
          Dot.mk (path.getD (path.length - 1) dummyPos) dc false := by
        have hlast := selectDotInitial_getLast path dc
        have hlen := selectDotInitial_length path dc h2
        rw [getLast?_eq_getD _ dummyDot (by
          intro h0
          rw [h0] at hlen
          simp only [List.length_nil] at hlen
          omega)] at hlast
        rw [hlen] at hlast
        exact Option.some_inj.mp hlast
      rw [hgl, if_neg hj0, if_pos rfl]
      have := findIndexPos_of_getD_nodup path hp (path.length - 1) (by omega)
      rw [this]
      omega
    · have hdc3 : 2 < dc := by omega
      have hj1 : 1 ≤ j := by omega
      have hj2 : j ≤ dc - 2 := by omega
      have hmid : (selectDotInitial path dc).getD j dummyDot =
          Dot.mk (path.getD (min (j * (path.length / (dc - 1))) (path.length - 2)) dummyPos)
            (j + 1) false := by
        have := claim_C4_amended path dc (j + 1) hdc3 hle (by omega) (by omega)
        simpa using this
      rw [hmid, if_neg hj0, if_neg hjlast]
      have hcap : j * (path.length / (dc - 1)) ≤ path.length - 2 :=
        cap_inactive path.length dc j h2 hle hj2
      have hmin : min (j * (path.length / (dc - 1))) (path.length - 2) =
          j * (path.length / (dc - 1)) := Nat.min_eq_left hcap
      rw [hmin]
      exact findIndexPos_of_getD_nodup path hp _ (by omega)

/-- The strict monotonicity, presence and fixed-last-index invariant of
the pre-jitter checkpoints. -/
theorem selectDotInitial_inv (path : List Position) (hp : path.Nodup) (dc : Nat)
    (h2 : 2 ≤ dc) (hle : dc ≤ path.length) :
    (∀ j1 j2, j1 < j2 → j2 < dc →
      findIndexPos path ((selectDotInitial path dc).getD j1 dummyDot).position <
      findIndexPos path ((selectDotInitial path dc).getD j2 dummyDot).position) ∧
    (∀ j, j < dc →
      0 ≤ findIndexPos path ((selectDotInitial path dc).getD j dummyDot).position) ∧
    findIndexPos path ((selectDotInitial path dc).getD (dc - 1) dummyDot).position =
      (path.length : Int) - 1 := by
  have hstep1 : 1 ≤ path.length / (dc - 1) := (Nat.one_le_div_iff (by omega)).mpr (by omega)
  refine ⟨?_, ?_, ?_⟩
  · intro j1 j2 hlt hj2
    rw [selectDotInitial_idx path hp dc h2 hle j1 (by omega),
      selectDotInitial_idx path hp dc h2 hle j2 hj2]
    by_cases h10 : j1 = 0
    · rw [if_pos h10]
      by_cases h2l : j2 = dc - 1
      · rw [if_neg (by omega : ¬ j2 = 0), if_pos h2l]
        omega
      · rw [if_neg (by omega : ¬ j2 = 0), if_neg h2l]
        have h1j2 : 1 * (path.length / (dc - 1)) ≤ j2 * (path.length / (dc - 1)) :=
          Nat.mul_le_mul_right _ (by omega)
        omega
    · rw [if_neg h10]
      have h1l : ¬ j1 = dc - 1 := by omega
      rw [if_neg h1l]
      have hcap1 : j1 * (path.length / (dc - 1)) ≤ path.length - 2 :=
        cap_inactive path.length dc j1 h2 hle (by omega)
      by_cases h2l : j2 = dc - 1
      · rw [if_neg (by omega : ¬ j2 = 0), if_pos h2l]
        omega
      · rw [if_neg (by omega : ¬ j2 = 0), if_neg h2l]
        have hmul2 : j1 * (path.length / (dc - 1)) < j2 * (path.length / (dc - 1)) :=
          (Nat.mul_lt_mul_right (by omega)).mpr hlt
        omega
  · intro j hj
    rw [selectDotInitial_idx path hp dc h2 hle j hj]
    by_cases h0 : j = 0
    · rw [if_pos h0]
    · rw [if_neg h0]
      by_cases hl : j = dc - 1
      · rw [if_pos hl]
        omega
      · rw [if_neg hl]
        positivity
  · rw [selectDotInitial_idx path hp dc h2 hle (dc - 1) (by omega)]
    by_cases h0 : dc - 1 = 0
    · omega
    · rw [if_neg h0, if_pos rfl]

theorem findIndexPos_getD_bound (path : List Position) (hp : path.Nodup) (X : Int)
    (h0 : 0 ≤ X) (h1 : X < (path.length : Int)) :
    findIndexPos path (path.getD X.toNat dummyPos) = X := by
  have h2 : X.toNat < path.length := by omega
  rw [findIndexPos_of_getD_nodup path hp X.toNat h2]
  omega

/-- Replacing the i-th dot by one sitting strictly between its old index
and the next dot keeps the monotone / present / fixed-last invariant. -/
theorem dots_set_inv (path : List Position) (dots : List Dot) (i : Nat)
    (hilen : i < dots.length) (hiL : i < dots.length - 1) (p2 : Position)
    (hmono : ∀ j1 j2, j1 < j2 → j2 < dots.length →
      findIndexPos path (dots.getD j1 dummyDot).position <
        findIndexPos path (dots.getD j2 dummyDot).position)
    (hpres : ∀ j, j < dots.length →
      0 ≤ findIndexPos path (dots.getD j dummyDot).position)
    (hlast : findIndexPos path (dots.getD (dots.length - 1) dummyDot).position =
      (path.length : Int) - 1)
    (hcomb : findIndexPos path (dots.getD i dummyDot).position ≤ findIndexPos path p2 ∧
      findIndexPos path p2 <
        findIndexPos path (dots.getD (i + 1) dummyDot).position ∧
      0 ≤ findIndexPos path p2) :
    (dots.set i { dots.getD i dummyDot with position := p2 }).length = dots.length ∧
    (∀ j1 j2, j1 < j2 → j2 < dots.length →
      findIndexPos path
        ((dots.set i { dots.getD i dummyDot with position := p2 }).getD j1 dummyDot).position <
      findIndexPos path
        ((dots.set i { dots.getD i dummyDot with position := p2 }).getD j2 dummyDot).position) ∧
    (∀ j, j < dots.length →
      0 ≤ findIndexPos path
        ((dots.set i { dots.getD i dummyDot with position := p2 }).getD j dummyDot).position) ∧
    findIndexPos path
      ((dots.set i { dots.getD i dummyDot with position := p2 }).getD
        (dots.length - 1) dummyDot).position = (path.length : Int) - 1 := by
  obtain ⟨hge, hub, hnn⟩ := hcomb
  have hproj : ({ dots.getD i dummyDot with position := p2 } : Dot).position = p2 := rfl
  have hgeteq : (dots.set i { dots.getD i dummyDot with position := p2 }).getD i dummyDot =
      { dots.getD i dummyDot with position := p2 } := getD_set_eq' _ _ _ _ hilen
  refine ⟨List.length_set _ _ _, ?_, ?_, ?_⟩
  · intro j1 j2 hlt hj2
    by_cases hj1i : j1 = i
    · subst hj1i
      rw [hgeteq, getD_set_ne' _ _ _ _ _ (by omega), hproj]
      have hj2ge : findIndexPos path (dots.getD (j1 + 1) dummyDot).position ≤
          findIndexPos path (dots.getD j2 dummyDot).position := by
        rcases Nat.eq_or_lt_of_le (by omega : j1 + 1 ≤ j2) with he | hlt2
        · rw [he]
        · exact le_of_lt (hmono (j1 + 1) j2 hlt2 hj2)
      omega
    · by_cases hj2i : j2 = i
      · subst hj2i
        rw [hgeteq, getD_set_ne' _ _ _ _ _ (by omega), hproj]
        have := hmono j1 j2 hlt (by omega)
        omega
      · rw [getD_set_ne' _ _ _ _ _ (by omega), getD_set_ne' _ _ _ _ _ (by omega)]
        exact hmono j1 j2 hlt hj2
  · intro j hj
    by_cases hji : j = i
    · subst hji
      rw [hgeteq, hproj]
      exact hnn
    · rw [getD_set_ne' _ _ _ _ _ (by omega)]
      exact hpres j hj
  · rw [getD_set_ne' _ _ _ _ _ (by omega)]
    exact hlast

/-- One jitter iteration preserves the invariant. -/
theorem randomizeStep_inv (path : List Position) (hp : path.Nodup) (rng : Nat → Nat)
    (dots : List Dot) (hL : 2 ≤ dots.length) (hlen : dots.length ≤ path.length)
    (i : Nat) (hi1 : 1 ≤ i) (hi2 : i ≤ dots.length - 2)
    (hmono : ∀ j1 j2, j1 < j2 → j2 < dots.length →
      findIndexPos path (dots.getD j1 dummyDot).position <
        findIndexPos path (dots.getD j2 dummyDot).position)
    (hpres : ∀ j, j < dots.length →
      0 ≤ findIndexPos path (dots.getD j dummyDot).position)
    (hlast : findIndexPos path (dots.getD (dots.length - 1) dummyDot).position =
      (path.length : Int) - 1) :
    (randomizeStep path rng dots i).length = dots.length ∧
    (∀ j1 j2, j1 < j2 → j2 < dots.length →
      findIndexPos path ((randomizeStep path rng dots i).getD j1 dummyDot).position <
        findIndexPos path ((randomizeStep path rng dots i).getD j2 dummyDot).position) ∧
    (∀ j, j < dots.length →
      0 ≤ findIndexPos path ((randomizeStep path rng dots i).getD j dummyDot).position) ∧
    findIndexPos path
      ((randomizeStep path rng dots i).getD (dots.length - 1) dummyDot).position =
      (path.length : Int) - 1 := by
  unfold randomizeStep
  by_cases hguard : (if i = dots.length - 2 then (path.length : Int) - 2
      else findIndexPos path (dots.getD (i + 1) dummyDot).position - 1) >
      (if i = 1 then (1 : Int)
      else findIndexPos path (dots.getD (i - 1) dummyDot).position + 1)
  · rw [if_pos hguard]
    have hilen : i < dots.length := by omega
    have hcpos : 0 ≤ findIndexPos path (dots.getD i dummyDot).position := hpres i hilen
    have hup : (if i = dots.length - 2 then (path.length : Int) - 2
        else findIndexPos path (dots.getD (i + 1) dummyDot).position - 1) <
        findIndexPos path (dots.getD (i + 1) dummyDot).position := by
      by_cases hil : i = dots.length - 2
      · rw [if_pos hil]
        have he : i + 1 = dots.length - 1 := by omega
        rw [he, hlast]
        omega
      · rw [if_neg hil]
        omega
    have hMc : findIndexPos path (dots.getD i dummyDot).position ≤
        (if i = dots.length - 2 then (path.length : Int) - 2
        else findIndexPos path (dots.getD (i + 1) dummyDot).position - 1) := by
      by_cases hil : i = dots.length - 2
      · rw [if_pos hil]
        have h1 := hmono i (dots.length - 1) (by omega) (by omega)
        rw [hlast] at h1
        omega
      · rw [if_neg hil]
        have h1 := hmono i (i + 1) (by omega) (by omega)
        omega
    have hMlt : (if i = dots.length - 2 then (path.length : Int) - 2
        else findIndexPos path (dots.getD (i + 1) dummyDot).position - 1) <
        (path.length : Int) := by
      by_cases hil : i = dots.length - 2
      · rw [if_pos hil]
        omega
      · rw [if_neg hil]
        have h1 := findIndexPos_lt_length path (dots.getD (i + 1) dummyDot).position
        omega
    refine dots_set_inv path dots i hilen (by omega) _ hmono hpres hlast ?_
    rw [findIndexPos_getD_bound path hp]
    · refine ⟨?_, ?_, ?_⟩ <;> omega
    · omega
    · omega
  · rw [if_neg hguard]
    exact ⟨rfl, hmono, hpres, hlast⟩

theorem randomizeDotPositions_inv (path : List Position) (hp : path.Nodup)
    (rng : Nat → Nat) (dots : List Dot) (hL : 2 ≤ dots.length)
    (hlen : dots.length ≤ path.length)
    (hmono : ∀ j1 j2, j1 < j2 → j2 < dots.length →
      findIndexPos path (dots.getD j1 dummyDot).position <
        findIndexPos path (dots.getD j2 dummyDot).position)
    (hpres : ∀ j, j < dots.length →
      0 ≤ findIndexPos path (dots.getD j dummyDot).position)
    (hlast : findIndexPos path (dots.getD (dots.length - 1) dummyDot).position =
      (path.length : Int) - 1) :
    (randomizeDotPositions path rng dots).length = dots.length ∧
    (∀ j1 j2, j1 < j2 → j2 < dots.length →
      findIndexPos path ((randomizeDotPositions path rng dots).getD j1 dummyDot).position <
        findIndexPos path ((randomizeDotPositions path rng dots).getD j2 dummyDot).position) ∧
    (∀ j, j < dots.length →
      0 ≤ findIndexPos path ((randomizeDotPositions path rng dots).getD j dummyDot).position) := by
  unfold randomizeDotPositions
  have hmain := foldl_preserves (randomizeStep path rng)
    (fun ds => ds.length = dots.length ∧
      (∀ j1 j2, j1 < j2 → j2 < dots.length →
        findIndexPos path (ds.getD j1 dummyDot).position <
          findIndexPos path (ds.getD j2 dummyDot).position) ∧
      (∀ j, j < dots.length →
        0 ≤ findIndexPos path (ds.getD j dummyDot).position) ∧
      findIndexPos path (ds.getD (dots.length - 1) dummyDot).position =
        (path.length : Int) - 1)
    (List.range' 1 (dots.length - 2)) dots ⟨rfl, hmono, hpres, hlast⟩ ?_
  · exact ⟨hmain.1, hmain.2.1, hmain.2.2.1⟩
  · intro ds i hi hP
    obtain ⟨hl, hm, hpr, hla⟩ := hP
    obtain ⟨hb1, hb2⟩ := List.mem_range'_1.mp hi
    have hm2 : ∀ j1 j2, j1 < j2 → j2 < ds.length →
        findIndexPos path (ds.getD j1 dummyDot).position <
          findIndexPos path (ds.getD j2 dummyDot).position :=
      fun j1 j2 ha hb => hm j1 j2 ha (by omega)
    have hpr2 : ∀ j, j < ds.length →
        0 ≤ findIndexPos path (ds.getD j dummyDot).position :=
      fun j hb => hpr j (by omega)
    have hla2 : findIndexPos path (ds.getD (ds.length - 1) dummyDot).position =
        (path.length : Int) - 1 := by
      rw [hl]
      exact hla
    obtain ⟨hs1, hs2, hs3, hs4⟩ := randomizeStep_inv path hp rng ds (by omega) (by omega)
      i hb1 (by omega) hm2 hpr2 hla2
    refine ⟨by omega, ?_, ?_, ?_⟩
    · intro j1 j2 ha hb
      exact hs2 j1 j2 ha (by omega)
    · intro j hb
      exact hs3 j (by omega)
    · have he : ds.length - 1 = dots.length - 1 := by omega
      rw [← he]
      exact hs4

/-- Claim C6: for every Hamiltonian path and every dotCount in
[2, path length] and every jitter RNG outcome, selectDotPositions
returns checkpoints with strictly increasing path indices, pairwise
distinct positions, and contiguous numbers 1..dotCount — so running it
twice on the same path yields checkpoints satisfying the same
invariants. -/
theorem claim_C6 (path : List Position) (dc : Nat) (rng : Nat → Nat)
    (hnd : path.Nodup) (hch : List.Chain' (fun a b => isOrthStep a b = true) path)
    (h2 : 2 ≤ dc) (hle : dc ≤ path.length) :
    ∃ dots, selectDotPositions path dc rng = some dots ∧
      dots.length = dc ∧
      dots.map (fun d => d.number) = List.range' 1 dc ∧
      List.Pairwise (fun a b =>
        findIndexPos path a.position < findIndexPos path b.position) dots ∧
      (∀ d ∈ dots, 0 ≤ findIndexPos path d.position) ∧
      (dots.map fun d => d.position).Nodup := by
  obtain ⟨dots, hsel, hdef, hdlen, hdnum, _, _⟩ := selectDotPositions_spec path dc rng h2 hle
  obtain ⟨hmono0, hpres0, hlast0⟩ := selectDotInitial_inv path hnd dc h2 hle
  have hinitlen := selectDotInitial_length path dc h2
  obtain ⟨hr1, hr2, hr3⟩ := randomizeDotPositions_inv path hnd rng (selectDotInitial path dc)
    (by omega) (by omega)
    (fun j1 j2 ha hb => hmono0 j1 j2 ha (by omega))
    (fun j hb => hpres0 j (by omega))
    (by rw [hinitlen]; exact hlast0)
  rw [← hdef] at hr1 hr2 hr3
  rw [hinitlen] at hr1 hr2 hr3
  have hpw : List.Pairwise (fun a b =>
      findIndexPos path a.position < findIndexPos path b.position) dots := by
    rw [List.pairwise_iff_get]
    intro a b hab
    have hb2 : (b : Nat) < dc := by
      have := b.2
      omega
    have := hr2 a.1 b.1 hab hb2
    rw [List.getD_eq_getElem dots dummyDot a.2, List.getD_eq_getElem dots dummyDot b.2] at this
    rwa [List.get_eq_getElem, List.get_eq_getElem]
  have hpres : ∀ d ∈ dots, 0 ≤ findIndexPos path d.position := by
    intro d hd
    obtain ⟨a, ha⟩ := List.mem_iff_get.mp hd
    have ha2 : (a : Nat) < dc := by
      have := a.2
      omega
    have := hr3 a.1 ha2
    rw [List.getD_eq_getElem dots dummyDot a.2] at this
    rw [← ha, List.get_eq_getElem]
    exact this
  refine ⟨dots, hsel, hdlen, hdnum, hpw, hpres, ?_⟩
  show List.Pairwise _ _
  rw [List.pairwise_map]
  refine hpw.imp ?_
  intro a b hab heq
  rw [heq] at hab
  exact lt_irrefl _ hab

/-- Witness for claim C6 on the concrete 9-cell serpentine path with
dotCount 4. -/
theorem claim_C6_witness :
    (path9.Nodup ∧ List.Chain' (fun a b => isOrthStep a b = true) path9 ∧
      2 ≤ 4 ∧ 4 ≤ path9.length) ∧
    (∃ dots, selectDotPositions path9 4 (fun _ => 1) = some dots ∧
      dots.length = 4 ∧
      dots.map (fun d => d.number) = List.range' 1 4 ∧
      List.Pairwise (fun a b =>
        findIndexPos path9 a.position < findIndexPos path9 b.position) dots ∧
      (∀ d ∈ dots, 0 ≤ findIndexPos path9 d.position) ∧
      (dots.map fun d => d.position).Nodup) :=
  ⟨⟨by decide, (pathContinuousB_iff path9).mp (by decide), by decide, by decide⟩,
    claim_C6 path9 4 (fun _ => 1) (by decide) ((pathContinuousB_iff path9).mp (by decide))
      (by decide) (by decide)⟩

/-! ### Claim C3 (corrected) -/

/-- Claim C3 counterexample: on cexPuzzle the drawn path path9 contains
dot 1 (index 0), dot 3 (index 2), dot 4 (index 4) and dot 2 (index 5),
and its head (2,2) is not on a dot. The spec's satisfied-in-order scan
stops at no dot (all four positions are present) and yields scope index
4, so the claim makes the target (1,1) at index 4 legal; the code's
getLastVisitedDot instead keeps index 5 (it skips dot 3 and dot 4 as
out of order but keeps scanning) and rejects the target. -/
theorem claim_C3_counterexample :
    (⟨1, 1⟩ : Position) ∈ path9 ∧
    cexPuzzle.dots.find? (fun dot =>
      dot.position.x == (path9.getD (path9.length - 1) dummyPos).x &&
      dot.position.y == (path9.getD (path9.length - 1) dummyPos).y) = none ∧
    specSatisfiedInOrderIndex cexPuzzle path9 = 4 ∧
    findIndexPos path9 ⟨1, 1⟩ = 4 ∧
    specSatisfiedInOrderIndex cexPuzzle path9 ≤ findIndexPos path9 ⟨1, 1⟩ ∧
    canBacktrackToPosition cexPuzzle path9 ⟨1, 1⟩ none = false := by
  refine ⟨by decide, by decide, by decide, by decide, by decide, by decide⟩

/-- Claim C3 amended: canBacktrackToPosition decides legality exactly as
follows. A target not in the path is illegal. If the head cell carries a
dot whose predecessor number is absent from the dot list (in particular
dot 1), every in-path target is legal; if the predecessor dot exists,
an in-path target is legal iff its index is at least the predecessor
position's findIndex (-1 when that position is not drawn). Otherwise the
scope index is getLastVisitedDot's: scan dots in ascending number order,
keep an index only when it strictly exceeds the kept one, skip dots
found at or before it, stop at the first absent dot; an in-path target
is legal iff no index was kept or its index is at least the kept one.
On the worked example 1-A-B-C-2-D-E-F the code rejects A and accepts D
and checkpoint 2's cell, as the claim states. -/
theorem claim_C3_amended (puzzle : Puzzle) (path : List Position) (target : Position) :
    (target ∉ path → canBacktrackToPosition puzzle path target none = false) ∧
    (∀ d, puzzle.dots.find? (fun dot =>
        dot.position.x == (path.getD (path.length - 1) dummyPos).x &&
        dot.position.y == (path.getD (path.length - 1) dummyPos).y) = some d →
      (getPreviousNumberedDot puzzle d.number = none →
        (canBacktrackToPosition puzzle path target none = true ↔ target ∈ path)) ∧
      (∀ p, getPreviousNumberedDot puzzle d.number = some p →
        (canBacktrackToPosition puzzle path target none = true ↔
          target ∈ path ∧ findIndexPos path p.position ≤ findIndexPos path target))) ∧
    (puzzle.dots.find? (fun dot =>
        dot.position.x == (path.getD (path.length - 1) dummyPos).x &&
        dot.position.y == (path.getD (path.length - 1) dummyPos).y) = none →
      (canBacktrackToPosition puzzle path target none = true ↔
        target ∈ path ∧ ((getLastVisitedDot puzzle path).2 = -1 ∨
          (getLastVisitedDot puzzle path).2 ≤ findIndexPos path target))) ∧
    (canBacktrackToPosition exPuzzle2 exPath8 ⟨1, 0⟩ none = false ∧
      canBacktrackToPosition exPuzzle2 exPath8 ⟨1, 2⟩ none = true ∧
      canBacktrackToPosition exPuzzle2 exPath8 ⟨2, 2⟩ none = true) := by
  refine ⟨?_, ?_, ?_, by decide, by decide, by decide⟩
  · intro hmem
    have hidx : findIndexPos path target = -1 := (findIndexPos_eq_neg_one_iff path target).mpr hmem
    simp [canBacktrackToPosition, hidx]
  · intro d hd
    by_cases hmem : target ∈ path
    · have hidx : ¬ findIndexPos path target = -1 := by
        have := (findIndexPos_nonneg_iff path target).mpr hmem
        omega
      constructor
      · intro hprev
        simp only [canBacktrackToPosition, if_neg hidx, hd, hprev]
        simp [hmem]
      · intro p hprev
        simp only [canBacktrackToPosition, if_neg hidx, hd, hprev]
        simp only [ge_iff_le, decide_eq_true_eq]
        constructor
        · intro h
          exact ⟨hmem, h⟩
        · intro h
          exact h.2
    · have hidx : findIndexPos path target = -1 :=
        (findIndexPos_eq_neg_one_iff path target).mpr hmem
      constructor
      · intro hprev
        simp [canBacktrackToPosition, hidx, hmem]
      · intro p hprev
        simp [canBacktrackToPosition, hidx, hmem]
  · intro hnone
    by_cases hmem : target ∈ path
    · have hidx : ¬ findIndexPos path target = -1 := by
        have := (findIndexPos_nonneg_iff path target).mpr hmem
        omega
      simp only [canBacktrackToPosition, if_neg hidx, hnone]
      by_cases hl : (getLastVisitedDot puzzle path).2 = -1
      · rw [if_pos hl]
        simp [hmem, hl]
      · rw [if_neg hl]
        simp only [ge_iff_le, decide_eq_true_eq]
        constructor
        · intro h
          exact ⟨hmem, Or.inr h⟩
        · intro h
          rcases h.2 with h2 | h2
          · exact absurd h2 hl
          · exact h2
    · have hidx : findIndexPos path target = -1 :=
        (findIndexPos_eq_neg_one_iff path target).mpr hmem
      simp only [canBacktrackToPosition, hidx, if_pos rfl]
      simp [hmem]

/-- Witness for the amended claim C3: the head of path9 carries no dot,
so the scope is getLastVisitedDot's; the iff instance comes from the
amended theorem applied at the concrete puzzle. -/
theorem claim_C3_amended_witness :
    cexPuzzle.dots.find? (fun dot =>
      dot.position.x == (path9.getD (path9.length - 1) dummyPos).x &&
      dot.position.y == (path9.getD (path9.length - 1) dummyPos).y) = none ∧
    (canBacktrackToPosition cexPuzzle path9 ⟨1, 1⟩ none = true ↔
      (⟨1, 1⟩ : Position) ∈ path9 ∧ ((getLastVisitedDot cexPuzzle path9).2 = -1 ∨
        (getLastVisitedDot cexPuzzle path9).2 ≤ findIndexPos path9 ⟨1, 1⟩)) :=
  ⟨by decide, (claim_C3_amended cexPuzzle path9 ⟨1, 1⟩).2.2.1 (by decide)⟩

/-! ### Claim C8 -/

/-- Claim C8: illegal interactive moves are atomic. During a drag, a
proposed cell that is not a valid move from the path head (in
particular a non-adjacent cell) leaves the drag path exactly unchanged;
in every case the handler either leaves the path unchanged, appends the
single legal fresh cell, or truncates at a legal backtrack target —
never a partial application. The mouse-down handler likewise either
leaves the path unchanged, starts the one-cell path [pos] from dot 1,
or truncates at a legal backtrack target. -/
theorem claim_C8 (puzzle : Puzzle) (dragPath : List Position) (position last : Position)
    (hlast : dragPath.getLast? = some last) :
    (isValidMove puzzle last position = false →
      handleMouseMoveDrag puzzle dragPath position = dragPath) ∧
    (handleMouseMoveDrag puzzle dragPath position = dragPath ∨
      (handleMouseMoveDrag puzzle dragPath position = dragPath ++ [position] ∧
        isValidMove puzzle last position = true ∧ position ∉ dragPath) ∨
      (∃ k : Nat, handleMouseMoveDrag puzzle dragPath position = dragPath.take (k + 1) ∧
        findIndexPos dragPath position = (k : Int) ∧
        canBacktrackToPosition puzzle dragPath position (some last) = true ∧
        isValidMove puzzle last position = true)) ∧
    (∀ (currentPath : List Position) (pos2 : Position),
      handleMouseDownPath puzzle currentPath pos2 = currentPath ∨
      handleMouseDownPath puzzle currentPath pos2 = [pos2] ∨
      ∃ k : Nat, handleMouseDownPath puzzle currentPath pos2 = currentPath.take (k + 1) ∧
        findIndexPos currentPath pos2 = (k : Int) ∧
        canBacktrackToPosition puzzle currentPath pos2
          (some (currentPath.getD (currentPath.length - 1) dummyPos)) = true) := by
  refine ⟨?_, ?_, ?_⟩
  · intro hbad
    simp only [handleMouseMoveDrag, hlast]
    by_cases hsame : (position.x == last.x && position.y == last.y) = true
    · rw [if_pos hsame]
    · rw [if_neg hsame]
      have hC : (!isValidMove puzzle last position) = true := by simp [hbad]
      rw [if_pos hC]
  · by_cases hsame : (position.x == last.x && position.y == last.y) = true
    · left
      simp only [handleMouseMoveDrag, hlast, if_pos hsame]
    · by_cases hv : isValidMove puzzle last position = true
      · have hC : ¬ ((!isValidMove puzzle last position) = true) := by simp [hv]
        by_cases hin : findIndexPos dragPath position ≠ -1
        · by_cases hbt : canBacktrackToPosition puzzle dragPath position (some last) = true
          · right; right
            refine ⟨(findIndexPos dragPath position).toNat, ?_, ?_, hbt, hv⟩
            · simp only [handleMouseMoveDrag, hlast, if_neg hsame]
              rw [if_neg hC, if_pos hin, if_pos hbt]
            · have := findIndexPos_cases dragPath position
              omega
          · left
            simp only [handleMouseMoveDrag, hlast, if_neg hsame]
            rw [if_neg hC, if_pos hin, if_neg hbt]
        · right; left
          refine ⟨?_, hv, ?_⟩
          · simp only [handleMouseMoveDrag, hlast, if_neg hsame]
            rw [if_neg hC, if_neg hin]
          · rw [not_not] at hin
            exact (findIndexPos_eq_neg_one_iff dragPath position).mp hin
      · left
        simp only [handleMouseMoveDrag, hlast, if_neg hsame]
        have hC : (!isValidMove puzzle last position) = true := by
          rw [Bool.not_eq_true] at hv
          simp [hv]
        rw [if_pos hC]
  · intro currentPath pos2
    cases hfind : puzzle.dots.find? (fun dot =>
        dot.position.x == pos2.x && dot.position.y == pos2.y) with
    | some d =>
      by_cases hstart : (d.number == 1 && currentPath.length == 0) = true
      · right; left
        simp only [handleMouseDownPath, hfind, if_pos hstart]
      · by_cases hin : findIndexPos currentPath pos2 ≠ -1
        · by_cases hbt : canBacktrackToPosition puzzle currentPath pos2
              (some (currentPath.getD (currentPath.length - 1) dummyPos)) = true
          · right; right
            refine ⟨(findIndexPos currentPath pos2).toNat, ?_, ?_, hbt⟩
            · simp only [handleMouseDownPath, hfind, if_neg hstart, if_pos hin, if_pos hbt]
            · have := findIndexPos_cases currentPath pos2
              omega
          · left
            simp only [handleMouseDownPath, hfind, if_neg hstart, if_pos hin, if_neg hbt]
        · left
          simp only [handleMouseDownPath, hfind, if_neg hstart, if_neg hin]
    | none =>
      by_cases hin : findIndexPos currentPath pos2 ≠ -1
      · by_cases hbt : canBacktrackToPosition puzzle currentPath pos2
            (some (currentPath.getD (currentPath.length - 1) dummyPos)) = true
        · right; right
          refine ⟨(findIndexPos currentPath pos2).toNat, ?_, ?_, hbt⟩
          · simp only [handleMouseDownPath, hfind, if_pos hin, if_pos hbt]
          · have := findIndexPos_cases currentPath pos2
            omega
        · left
          simp only [handleMouseDownPath, hfind, if_pos hin, if_neg hbt]
      · left
        simp only [handleMouseDownPath, hfind, if_neg hin]

/-- Witness for claim C8: on the sample puzzle, moving from head (0,1)
to the non-adjacent (1,0) leaves the two-cell drag path unchanged. -/
theorem claim_C8_witness :
    ([⟨0, 0⟩, ⟨0, 1⟩] : List Position).getLast? = some ⟨0, 1⟩ ∧
    (isValidMove samplePuzzle ⟨0, 1⟩ ⟨1, 0⟩ = false →
      handleMouseMoveDrag samplePuzzle [⟨0, 0⟩, ⟨0, 1⟩] ⟨1, 0⟩ = [⟨0, 0⟩, ⟨0, 1⟩]) ∧
    isValidMove samplePuzzle ⟨0, 1⟩ ⟨1, 0⟩ = false :=
  ⟨by decide,
    (claim_C8 samplePuzzle [⟨0, 0⟩, ⟨0, 1⟩] ⟨1, 0⟩ ⟨0, 1⟩ (by decide)).1,
    by decide⟩

end ZipPuzzle
